import Mathlib

/-!
Verification development for the NYT Digits puzzle repository.

The repository consists of two tightly coupled pieces:
  * `nytdigits.py` — the `DigitsPuzzle` class: a target value, a multiset of
    positive integer sources kept in descending order, and a
    `forced_operand` attribute implementing the "chain mode" rule;
  * `puzzlesolver.py` — a generic breadth-first solver whose `_solve`
    generator explores puzzle states, deduplicating on canonical states.

Everything below is a shallow embedding of that Python code.  Python
integers are `Int`; Python lists of ints are `List Int`; a Python method
that can raise is embedded as an `Option`- (or explicit error-state-)
returning function.  Python `sorted(.., reverse=True)` is `sortDesc`,
Python `list.remove` is `List.erase` (both remove the first matching
occurrence), Python `%` on integers is `Int.emod` and `//` is `Int.fdiv`
(both agree with Python's sign conventions).
-/

namespace NYTDigits

/-- The `forced_operand` attribute of `DigitsPuzzle`.  It is either Python
`None` (`free`), the `DigitsPuzzle.CHAINMODE` sentinel object
(`chainmode`), or a concrete integer value. -/
inductive ForcedOp where
  | free
  | chainmode
  | value (v : Int)
deriving DecidableEq, Repr

/-- Python truthiness of the `forced_operand` attribute, used by the
`if self.forced_operand:` test in `DigitsPuzzle.move`: `None` is falsy, the
`CHAINMODE` sentinel object is truthy, an int is truthy iff nonzero. -/
def ForcedOp.truthy : ForcedOp → Bool
  | .free => false
  | .chainmode => true
  | .value v => v != 0

/-- The state of a `DigitsPuzzle` instance: its three attributes. -/
structure DigitsPuzzle where
  target : Int
  sources : List Int
  forced_operand : ForcedOp
deriving DecidableEq, Repr

/-- Python `sorted(l, reverse=True)` (descending order).  For integer
lists the result of any (stable) sort is determined by the multiset of
elements, so insertion sort is a faithful model of Python's sort. -/
def sortDesc (l : List Int) : List Int := l.insertionSort (· ≥ ·)

/-- `DigitsPuzzle.__init__`: sort the sources descending, then raise
(`none`) if the last (smallest) value is non-positive.  An empty source
list also raises (an `IndexError` from `sources[-1]`), hence `none`. -/
def mkDigitsPuzzle (target : Int) (sources : List Int) (fo : ForcedOp) :
    Option DigitsPuzzle :=
  match (sortDesc sources).getLast? with
  | Option.none => Option.none
  | Option.some smallest =>
      if smallest ≤ 0 then Option.none
      else Option.some ⟨target, sortDesc sources, fo⟩

/-- The `endstate` property: the target is present among the sources. -/
def DigitsPuzzle.endstate (p : DigitsPuzzle) : Bool :=
  decide (p.target ∈ p.sources)

/-- `DigitsPuzzle.clone`: rebuild a puzzle with the same attributes via
the constructor (which re-sorts and re-validates the sources). -/
def DigitsPuzzle.clone (p : DigitsPuzzle) : Option DigitsPuzzle :=
  mkDigitsPuzzle p.target p.sources p.forced_operand

/-- `itertools.combinations(l, 2)`: all pairs `(l[i], l[j])` with
`i < j`, in lexicographic index order. -/
def combinations2 : List Int → List (Int × Int)
  | [] => []
  | x :: xs => (xs.map fun y => (x, y)) ++ combinations2 xs

/-- `DigitsPuzzle._sourcecombos`.  When the forced operand is a concrete
value present in the sources, the Python code builds
`chain(takewhile(lambda x: x != f, g), g)` over a single iterator `g` of
the sources: this yields the sources with the first occurrence of `f`
dropped (`takewhile` consumes and discards the first `f`; the rest of `g`
follows), and pairs `f` with each of them.  Otherwise it yields all
2-combinations of the sources. -/
def DigitsPuzzle.sourcecombos (p : DigitsPuzzle) : List (Int × Int) :=
  match p.forced_operand with
  | .value f =>
      if f ∈ p.sources then
        ((p.sources.takeWhile fun x => x != f) ++
            ((p.sources.dropWhile fun x => x != f).drop 1)).map fun b => (f, b)
      else combinations2 p.sources
  | _ => combinations2 p.sources

/-- The four arithmetic operators used in moves (`operator.add`,
`operator.sub`, `operator.mul`, `operator.floordiv`). -/
inductive Op where
  | add
  | sub
  | mul
  | div
deriving DecidableEq, Repr

/-- Apply an operator; `Op.div` is Python's integer floor division. -/
def applyOp : Op → Int → Int → Int
  | .add, a, b => a + b
  | .sub, a, b => a - b
  | .mul, a, b => a * b
  | .div, a, b => Int.fdiv a b

/-- A move is a tuple `(op, (a, b))`. -/
abbrev Move := Op × (Int × Int)

/-- `DigitsPuzzle.legalmoves`: all adds, then subtracts with `a > b`,
then multiplies with `b != 1`, then floor divisions with `a % b == 0`
and `b != 1`, each pass drawing its pairs from `_sourcecombos`. -/
def DigitsPuzzle.legalmoves (p : DigitsPuzzle) : List Move :=
  (p.sourcecombos.map fun ab => (Op.add, ab)) ++
  ((p.sourcecombos.filter fun ab => decide (ab.1 > ab.2)).map
      fun ab => (Op.sub, ab)) ++
  ((p.sourcecombos.filter fun ab => ab.2 != 1).map
      fun ab => (Op.mul, ab)) ++
  ((p.sourcecombos.filter fun ab => ab.1 % ab.2 == 0 && ab.2 != 1).map
      fun ab => (Op.div, ab))

/-- Outcome of `DigitsPuzzle.move`, which mutates its receiver: either a
normal return (the updated receiver) or a raised `ValueError` together
with the state the receiver was left in at the point of the raise. -/
inductive MoveOutcome where
  | ok (p : DigitsPuzzle)
  | err (receiver : DigitsPuzzle)
deriving DecidableEq, Repr

/-- `DigitsPuzzle.move`: remove each operand from the sources in turn
(`list.remove` raises if absent, leaving any earlier removal in place),
compute the result, raise if it is non-positive (with both operands
already removed and the result not inserted), otherwise update the
forced operand when truthy and insert the result, re-sorting. -/
def DigitsPuzzle.moveImpl (p : DigitsPuzzle) (m : Move) : MoveOutcome :=
  let (op, ab) := m
  let (a, b) := ab
  if a ∈ p.sources then
    let s1 := p.sources.erase a
    if b ∈ s1 then
      let s2 := s1.erase b
      let rslt := applyOp op a b
      if rslt ≤ 0 then .err { p with sources := s2 }
      else
        let fo := if p.forced_operand.truthy then ForcedOp.value rslt
                  else p.forced_operand
        .ok { p with sources := sortDesc (s2 ++ [rslt]), forced_operand := fo }
    else .err { p with sources := s1 }
  else .err p

/-- `DigitsPuzzle.move` viewed as a fallible function: `none` when it
raises. -/
def DigitsPuzzle.move (p : DigitsPuzzle) (m : Move) : Option DigitsPuzzle :=
  match p.moveImpl m with
  | .ok q => Option.some q
  | .err _ => Option.none

/-- `DigitsPuzzle.copy_and_move`: `self.clone().move(m)`.  The move is
performed on the fresh clone, never on the receiver. -/
def DigitsPuzzle.copy_and_move (p : DigitsPuzzle) (m : Move) :
    Option DigitsPuzzle :=
  (p.clone).bind fun c => c.move m

/-- `DigitsPuzzle.canonicalstate`: `tuple(self.sources + [self.forced_operand])`.
Two such Python tuples are equal iff the source lists are equal and the
trailing markers are equal (ints, `None` and the `CHAINMODE` object are
mutually non-equal), so the faithful model is the pair below. -/
def DigitsPuzzle.canonicalstate (p : DigitsPuzzle) : List Int × ForcedOp :=
  (p.sources, p.forced_operand)

/-- Well-formedness of a puzzle state, as established by the constructor
and preserved by `move`: non-empty sources, all strictly positive, in
descending order. -/
def WF (p : DigitsPuzzle) : Prop :=
  p.sources ≠ [] ∧ (∀ x ∈ p.sources, 0 < x) ∧ p.sources.Sorted (· ≥ ·)

instance (p : DigitsPuzzle) : Decidable (WF p) := by
  unfold WF; infer_instance

/-! ## The generic breadth-first solver (`puzzlesolver.py`), instantiated
at `DigitsPuzzle`.

`_solve` assumes `copy_and_move` total (it never catches exceptions); the
embedding below totalizes it with `Option.getD`.  For every run analysed
in the theorems, all applied moves come from `legalmoves` on well-formed
states, where `copy_and_move` provably succeeds (`legalmoves_valid`), so
the default branch is never taken. -/

/-- Totalized `copy_and_move`, as used by the solver. -/
def cam (p : DigitsPuzzle) (m : Move) : DigitsPuzzle :=
  (p.copy_and_move m).getD p

abbrev CanonState := List Int × ForcedOp

/-- A queue entry of `_solve`: a puzzle state and the move trail that
produced it. -/
abbrev Entry := DigitsPuzzle × List Move

/-- The body of the inner `for move in z.legalmoves()` loop of
`PuzzleSolver._solve`, processing the move list `ms` against the visited
set `st`: returns (solutions yielded, updated `statetrail`, entries
appended to the queue), each in encounter order. -/
def processMoves (z : DigitsPuzzle) (trail : List Move) :
    List CanonState → List Move →
    List (List Move) × List CanonState × List Entry
  | st, [] => ([], st, [])
  | st, m :: ms =>
    let z2 := cam z m
    let s := z2.canonicalstate
    if s ∈ st then processMoves z trail st ms
    else if z2.endstate then
      let r := processMoves z trail st ms
      ((trail ++ [m]) :: r.1, r.2.1, r.2.2)
    else
      let r := processMoves z trail (st ++ [s]) ms
      (r.1, r.2.1, (z2, trail ++ [m]) :: r.2.2)

/-- `PuzzleSolver._solve`, run to exhaustion, fuel-indexed: one unit of
fuel per dequeue (Python's outer `for ... itertools.count(1)` loop
iteration).  The Python loop runs until the queue empties; every run
analysed below receives enough fuel to get there, so the fuel cutoff is
never hit. -/
def solveAux : Nat → List CanonState → List Entry → List (List Move)
  | 0, _, _ => []
  | _ + 1, _, [] => []
  | fuel + 1, st, (z, trail) :: rest =>
    let r := processMoves z trail st z.legalmoves
    r.1 ++ solveAux fuel r.2.1 (rest ++ r.2.2)

/-- `solveAux` instrumented with a ghost output: the list of entries
appended to the queue during the run (the solutions component is
identical, see `solveAuxTrace_fst`). -/
def solveAuxTrace : Nat → List CanonState → List Entry →
    List (List Move) × List Entry
  | 0, _, _ => ([], [])
  | _ + 1, _, [] => ([], [])
  | fuel + 1, st, (z, trail) :: rest =>
    let r := processMoves z trail st z.legalmoves
    let r2 := solveAuxTrace fuel r.2.1 (rest ++ r.2.2)
    (r.1 ++ r2.1, r.2.2 ++ r2.2)

/-- One breadth-first layer: process a list of same-depth entries in
order, threading the visited set, collecting yielded solutions and the
children entries of the next layer. -/
def processLayer : List CanonState → List Entry →
    List (List Move) × List CanonState × List Entry
  | st, [] => ([], st, [])
  | st, (z, trail) :: es =>
    let r := processMoves z trail st z.legalmoves
    let r2 := processLayer r.2.1 es
    (r.1 ++ r2.1, r2.2.1, r.2.2 ++ r2.2.2)

/-- Layer-by-layer reformulation of the FIFO search (lemma
`solveAux_eq_solveLayers` shows it agrees with `solveAux` when the fuel
suffices). -/
def solveLayers : Nat → List CanonState → List Entry → List (List Move)
  | 0, _, _ => []
  | k + 1, st, q =>
    let r := processLayer st q
    r.1 ++ solveLayers k r.2.1 r.2.2

/-- The exact number of dequeues performed in `k` layers starting from
queue `q`: used to compute a sufficient fuel for `solveAux`. -/
def layersFuel : Nat → List CanonState → List Entry → Nat
  | 0, _, q => q.length
  | k + 1, st, q =>
    let r := processLayer st q
    q.length + layersFuel k r.2.1 r.2.2

/-- All solutions yielded by one `PuzzleSolver._solve` generator run on
puzzle `p`, in yield order, to exhaustion of the search space. -/
def solveAll (p : DigitsPuzzle) : List (List Move) :=
  solveAux (layersFuel p.sources.length [p.canonicalstate] [(p, [])])
    [p.canonicalstate] [(p, [])]

/-- `PuzzleSolver.solve(puzzle)` with the default `n=1`: the single first
yielded solution, or the empty list when the generator yields nothing. -/
def solve1 (p : DigitsPuzzle) : List Move := (solveAll p).headD []

/-- `PuzzleSolver.solve(puzzle, n)`: the first `n` yielded solutions. -/
def solveN (p : DigitsPuzzle) (n : Nat) : List (List Move) :=
  (solveAll p).take n

/-- The state reached from `p` by applying a move sequence through the
solver's `copy_and_move`. -/
def applyTrail (p : DigitsPuzzle) (ms : List Move) : DigitsPuzzle :=
  ms.foldl cam p

/-- A move sequence each of whose moves is generated by `legalmoves` at
the state where it is applied. -/
def ValidTrail (p : DigitsPuzzle) : List Move → Prop
  | [] => True
  | m :: ms => m ∈ p.legalmoves ∧ ValidTrail (cam p m) ms

/-- A move sequence that solves `p`: valid, and its application reaches
an end state. -/
def Solution (p : DigitsPuzzle) (ms : List Move) : Prop :=
  ValidTrail p ms ∧ (applyTrail p ms).endstate = true

/-- The condition `self.forced_operand in self.sources` that
`_sourcecombos` tests: a concrete forced value currently present among
the sources.  (Python `in` on a list of ints matches neither `None` nor
the `CHAINMODE` sentinel object.) -/
def forcedActive (p : DigitsPuzzle) : Bool :=
  match p.forced_operand with
  | .value f => decide (f ∈ p.sources)
  | _ => false

/-- The spec's description of the move set (§4.1 of the specification):
the union, in this fixed order, of an add for every generated pair, a
subtract for every pair with `a > b`, a multiply for every pair with
`b ≠ 1`, and an integer divide for every pair with `a` evenly divisible
by `b` and `b ≠ 1`. -/
def legalmoves_spec (p : DigitsPuzzle) : List Move :=
  (p.sourcecombos.map fun ab => (Op.add, ab)) ++
  ((p.sourcecombos.filter fun ab => decide (ab.1 > ab.2)).map
      fun ab => (Op.sub, ab)) ++
  ((p.sourcecombos.filter fun ab => decide (¬ ab.2 = 1)).map
      fun ab => (Op.mul, ab)) ++
  ((p.sourcecombos.filter fun ab => decide (ab.2 ∣ ab.1) &&
        decide (¬ ab.2 = 1)).map
      fun ab => (Op.div, ab))

/-- The operator-specific legality filter that `legalmoves` applies to a
pair drawn from `_sourcecombos`. -/
def opCondition (op : Op) (ab : Int × Int) : Prop :=
  match op with
  | .add => True
  | .sub => ab.2 < ab.1
  | .mul => ab.2 ≠ 1
  | .div => ab.1 % ab.2 = 0 ∧ ab.2 ≠ 1

/-! ## A minimal object-store model for the aliasing/frame claims.

Python objects live on a heap; `clone` allocates a fresh object (note
`sorted` always returns a new list, so the clone's `sources` list is
freshly allocated) and `move` mutates the object it is invoked on.  The
store is the list of live `DigitsPuzzle` objects and a reference is an
index into it. -/

abbrev Store := List DigitsPuzzle

abbrev Ref := Nat

/-- `clone` as a store operation: allocate a new object built by the
constructor from the receiver's attributes; `none` if the constructor
raises (or the reference dangles). -/
def storeClone (σ : Store) (r : Ref) : Store × Option Ref :=
  match σ.get? r with
  | Option.none => (σ, Option.none)
  | Option.some p =>
      match p.clone with
      | Option.none => (σ, Option.none)
      | Option.some c => (σ ++ [c], Option.some σ.length)

/-- `move` as a store operation: mutate the object behind `r` in place;
on a raise (`err`) the object is left in its partially mutated state and
no reference is returned. -/
def storeMove (σ : Store) (r : Ref) (m : Move) : Store × Option Ref :=
  match σ.get? r with
  | Option.none => (σ, Option.none)
  | Option.some p =>
      match p.moveImpl m with
      | .ok q => (σ.set r q, Option.some r)
      | .err q => (σ.set r q, Option.none)

/-- `copy_and_move` as a store operation: clone the receiver, then move
on the clone. -/
def store_copy_and_move (σ : Store) (r : Ref) (m : Move) :
    Store × Option Ref :=
  match storeClone σ r with
  | (σ2, Option.none) => (σ2, Option.none)
  | (σ2, Option.some r2) => storeMove σ2 r2 m

/-! ## Search-path predicates used to state the solver theorems -/

/-- Reachability along a "search path": a valid trail all of whose
strictly intermediate states (the states after moves `1..k-1`, for a
trail of `k` moves) are non-end states.  These are exactly the paths the
breadth-first search can traverse, since end-state children are yielded
but never enqueued, while the seed is explored unconditionally. -/
def GoodTrail (p : DigitsPuzzle) : List Move → DigitsPuzzle → Prop
  | [], q => q = p
  | m :: ms, q => m ∈ p.legalmoves ∧ (ms = [] ∨ (cam p m).endstate = false) ∧
      GoodTrail (cam p m) ms q

/-- `p` is reachable from `p0` by a search path of exactly `k` moves. -/
def Reached (p0 : DigitsPuzzle) (k : Nat) (p : DigitsPuzzle) : Prop :=
  ∃ t, GoodTrail p0 t p ∧ t.length = k

/-- `k` is the least search-path distance from `p0` to `p`. -/
def MinReach (p0 : DigitsPuzzle) (k : Nat) (p : DigitsPuzzle) : Prop :=
  Reached p0 k p ∧ ∀ j < k, ¬ Reached p0 j p

/-- The breadth-first layer invariant: before processing layer `k`, `st`
is the visited set and `F` the frontier (all entries of depth `k`). -/
structure LayerInv (p0 : DigitsPuzzle) (k : Nat) (st : List CanonState)
    (F : List Entry) : Prop where
  entry_good : ∀ e ∈ F, GoodTrail p0 e.2 e.1 ∧ e.2.length = k ∧
      (k ≠ 0 → e.1.endstate = false) ∧ WF e.1 ∧ e.1.target = p0.target ∧
      e.1.sources.length + k = p0.sources.length ∧ MinReach p0 k e.1
  st_iff : ∀ s, s ∈ st ↔ (s = p0.canonicalstate ∨
      ∃ p j, 1 ≤ j ∧ j ≤ k ∧ MinReach p0 j p ∧ p.endstate = false ∧
        p.target = p0.target ∧ s = p.canonicalstate)
  frontier_complete : ∀ p, MinReach p0 k p → (p.endstate = false ∨ k = 0) →
      ∃ t, (p, t) ∈ F

/-! ## Basic lemmas about the sorting and pairing helpers -/

theorem sortDesc_sorted (l : List Int) : (sortDesc l).Sorted (· ≥ ·) :=
  List.sorted_insertionSort _ l

theorem sortDesc_perm (l : List Int) : List.Perm (sortDesc l) l :=
  List.perm_insertionSort _ l

theorem sortDesc_eq_of_sorted {l : List Int} (h : l.Sorted (· ≥ ·)) :
    sortDesc l = l :=
  List.eq_of_perm_of_sorted (sortDesc_perm l) (sortDesc_sorted l) h

theorem mem_sortDesc {l : List Int} {x : Int} : x ∈ sortDesc l ↔ x ∈ l :=
  (sortDesc_perm l).mem_iff

theorem length_sortDesc (l : List Int) : (sortDesc l).length = l.length :=
  (sortDesc_perm l).length_eq

/-- In a descending-sorted list the last element is a minimum. -/
theorem sorted_ge_getLast_le {l : List Int} (hs : l.Sorted (· ≥ ·))
    (hne : l ≠ []) {x : Int} (hx : x ∈ l) : l.getLast hne ≤ x := by
  induction l with
  | nil => cases hx
  | cons y ys ih =>
    rcases List.mem_cons.mp hx with rfl | hxs
    · match ys with
      | [] => simp [List.getLast]
      | z :: zs =>
          rw [List.getLast_cons (by simp)]
          have hzmem : (z :: zs).getLast (by simp) ∈ z :: zs :=
            List.getLast_mem _
          exact (List.sorted_cons.mp hs).1 _ hzmem
    · have hysne : ys ≠ [] := List.ne_nil_of_mem hxs
      rw [List.getLast_cons hysne]
      exact ih (List.sorted_cons.mp hs).2 hysne hxs

/-- The `takewhile`/`chain` construction of `_sourcecombos` produces the
source list with the first occurrence of `f` dropped. -/
theorem takeWhile_dropWhile_erase {l : List Int} {f : Int} :
    (l.takeWhile fun x => x != f) ++ ((l.dropWhile fun x => x != f).drop 1)
      = l.erase f := by
  induction l with
  | nil => rfl
  | cons x xs ih =>
    by_cases hx : x = f
    · subst hx
      simp [List.takeWhile_cons, List.dropWhile_cons, List.erase_cons]
    · have hbne : (x != f) = true := by simp [hx]
      simp [List.takeWhile_cons, List.dropWhile_cons, List.erase_cons, hbne,
        hx, ← List.drop_one, ih]

theorem combinations2_mem {l : List Int} {a b : Int}
    (h : (a, b) ∈ combinations2 l) : a ∈ l ∧ b ∈ l.erase a := by
  induction l with
  | nil => cases h
  | cons x xs ih =>
    simp only [combinations2, List.mem_append, List.mem_map] at h
    rcases h with ⟨y, hy, he⟩ | h
    · cases he
      refine ⟨List.mem_cons_self _ _, ?_⟩
      rw [List.erase_cons_head]
      exact hy
    · obtain ⟨ha, hb⟩ := ih h
      constructor
      · exact List.mem_cons_of_mem _ ha
      · rw [List.erase_cons]
        by_cases hxa : (x == a) = true
        · rw [if_pos hxa]
          exact (List.erase_subset _ _) hb
        · rw [if_neg hxa]
          exact List.mem_cons_of_mem _ hb

theorem combinations2_ge {l : List Int} (hs : l.Sorted (· ≥ ·)) {a b : Int}
    (h : (a, b) ∈ combinations2 l) : b ≤ a := by
  induction l with
  | nil => cases h
  | cons x xs ih =>
    simp only [combinations2, List.mem_append, List.mem_map] at h
    rcases h with ⟨y, hy, he⟩ | h
    · cases he
      exact (List.sorted_cons.mp hs).1 _ hy
    · exact ih (List.sorted_cons.mp hs).2 h

/-- C7 supporting lemma, also the shape used everywhere below: with an
active concrete forced operand, the generated pairs are the forced value
against every element of the sources minus one occurrence of the forced
value. -/
theorem sourcecombos_forced {p : DigitsPuzzle} {f : Int}
    (hf : p.forced_operand = .value f) (hmem : f ∈ p.sources) :
    p.sourcecombos = (p.sources.erase f).map fun b => (f, b) := by
  unfold DigitsPuzzle.sourcecombos
  rw [hf]
  simp only [hmem, if_pos]
  rw [takeWhile_dropWhile_erase]

theorem sourcecombos_unforced {p : DigitsPuzzle}
    (h : forcedActive p = false) :
    p.sourcecombos = combinations2 p.sources := by
  unfold DigitsPuzzle.sourcecombos
  unfold forcedActive at h
  match hfo : p.forced_operand with
  | .free => rfl
  | .chainmode => rfl
  | .value f =>
    rw [hfo] at h
    simp only [decide_eq_false_iff_not] at h
    simp [h]

theorem sourcecombos_mem {p : DigitsPuzzle} {a b : Int}
    (h : (a, b) ∈ p.sourcecombos) :
    a ∈ p.sources ∧ b ∈ p.sources.erase a := by
  by_cases hfa : forcedActive p = true
  · unfold forcedActive at hfa
    match hfo : p.forced_operand with
    | .free => rw [hfo] at hfa; cases hfa
    | .chainmode => rw [hfo] at hfa; cases hfa
    | .value f =>
      rw [hfo] at hfa
      simp only [decide_eq_true_eq] at hfa
      rw [sourcecombos_forced hfo hfa] at h
      simp only [List.mem_map] at h
      obtain ⟨y, hy, he⟩ := h
      cases he
      exact ⟨hfa, hy⟩
  · rw [sourcecombos_unforced (by simpa using hfa)] at h
    exact combinations2_mem h

theorem legalmoves_mem {p : DigitsPuzzle} {m : Move} (h : m ∈ p.legalmoves) :
    m.2 ∈ p.sourcecombos ∧ opCondition m.1 m.2 := by
  unfold DigitsPuzzle.legalmoves at h
  simp only [List.mem_append, List.mem_map, List.mem_filter] at h
  rcases h with ((⟨ab, hab, he⟩ | ⟨ab, ⟨hab, hc⟩, he⟩) | ⟨ab, ⟨hab, hc⟩, he⟩) |
      ⟨ab, ⟨hab, hc⟩, he⟩
  · cases he; exact ⟨hab, trivial⟩
  · cases he
    simp only [decide_eq_true_eq] at hc
    exact ⟨hab, hc⟩
  · cases he
    simp only [bne_iff_ne, ne_eq] at hc
    exact ⟨hab, hc⟩
  · cases he
    simp only [Bool.and_eq_true, beq_iff_eq, bne_iff_ne, ne_eq] at hc
    exact ⟨hab, hc⟩

/-- C6: `legalmoves()` yields exactly the union, in this fixed order, of
an add move for every generated operand pair, a subtract move for every
pair with `a > b`, a multiply move for every pair with `b ≠ 1`, and an
integer-divide move for every pair with `a` evenly divisible by `b` and
`b ≠ 1`. -/
theorem legalmoves_eq_spec (p : DigitsPuzzle) :
    p.legalmoves = legalmoves_spec p := by
  unfold DigitsPuzzle.legalmoves legalmoves_spec
  have h1 : ∀ ab : Int × Int, (ab.2 != 1) = decide (¬ ab.2 = 1) := by
    intro ab
    by_cases h : ab.2 = 1 <;> simp [h]
  have h2 : ∀ ab : Int × Int,
      (ab.1 % ab.2 == 0 && (ab.2 != 1)) =
        (decide (ab.2 ∣ ab.1) && decide (¬ ab.2 = 1)) := by
    intro ab
    by_cases hd : ab.2 ∣ ab.1
    · rw [Int.emod_eq_zero_of_dvd hd]
      simp [hd, h1 ab]
    · have hne : ¬ ab.1 % ab.2 = 0 := fun hc => hd (Int.dvd_of_emod_eq_zero hc)
      simp [hd, hne]
  rw [List.filter_congr (fun ab _ => h1 ab),
      List.filter_congr (fun ab _ => h2 ab)]

/-! ## Lemmas about `clone` and `move` -/

theorem clone_eq_self {p : DigitsPuzzle} (hp : WF p) :
    p.clone = Option.some p := by
  obtain ⟨hne, hpos, hsort⟩ := hp
  unfold DigitsPuzzle.clone mkDigitsPuzzle
  simp only [sortDesc_eq_of_sorted hsort]
  rw [List.getLast?_eq_getLast _ hne]
  have hmem := List.getLast_mem hne
  have : ¬ p.sources.getLast hne ≤ 0 := not_le.mpr (hpos _ hmem)
  simp [this]

theorem move_eq_of_pos {p : DigitsPuzzle} {op : Op} {a b : Int}
    (ha : a ∈ p.sources) (hb : b ∈ p.sources.erase a)
    (hpos : 0 < applyOp op a b) :
    p.move (op, (a, b)) = Option.some
      ⟨p.target,
       sortDesc (((p.sources.erase a).erase b) ++ [applyOp op a b]),
       if p.forced_operand.truthy then ForcedOp.value (applyOp op a b)
       else p.forced_operand⟩ := by
  unfold DigitsPuzzle.move DigitsPuzzle.moveImpl
  simp only [ha, if_pos, hb, not_le.mpr hpos, if_neg, if_false]

theorem move_some_inv {p q : DigitsPuzzle} {op : Op} {a b : Int}
    (h : p.move (op, (a, b)) = Option.some q) :
    a ∈ p.sources ∧ b ∈ p.sources.erase a ∧ 0 < applyOp op a b ∧
      q = ⟨p.target,
           sortDesc (((p.sources.erase a).erase b) ++ [applyOp op a b]),
           if p.forced_operand.truthy then ForcedOp.value (applyOp op a b)
           else p.forced_operand⟩ := by
  unfold DigitsPuzzle.move DigitsPuzzle.moveImpl at h
  by_cases ha : a ∈ p.sources
  · by_cases hb : b ∈ p.sources.erase a
    · by_cases hr : applyOp op a b ≤ 0
      · simp [ha, hb, hr] at h
      · simp only [ha, if_pos, hb, hr, if_neg, if_false] at h
        cases h
        exact ⟨ha, hb, not_le.mp hr, rfl⟩
    · simp [ha, hb] at h
  · simp [ha] at h

theorem sourcecombos_pos {p : DigitsPuzzle} (hpos : ∀ x ∈ p.sources, 0 < x)
    {a b : Int} (h : (a, b) ∈ p.sourcecombos) : 0 < a ∧ 0 < b := by
  obtain ⟨ha, hb⟩ := sourcecombos_mem h
  exact ⟨hpos a ha, hpos b ((List.erase_subset _ _) hb)⟩

theorem fdiv_pos_of_emod_eq_zero {a b : Int} (ha : 0 < a) (hb : 0 < b)
    (h : a % b = 0) : 0 < Int.fdiv a b := by
  obtain ⟨k, hk⟩ := Int.dvd_of_emod_eq_zero h
  subst hk
  rw [Int.mul_fdiv_cancel_left _ (ne_of_gt hb)]
  by_contra hk0
  push_neg at hk0
  nlinarith

theorem legalmove_result_pos {p : DigitsPuzzle}
    (hpos : ∀ x ∈ p.sources, 0 < x) {m : Move} (hm : m ∈ p.legalmoves) :
    0 < applyOp m.1 m.2.1 m.2.2 := by
  obtain ⟨hab, hc⟩ := legalmoves_mem hm
  obtain ⟨op, a, b⟩ := m
  obtain ⟨ha, hb⟩ := sourcecombos_pos hpos hab
  cases op with
  | add => simpa [applyOp] using by linarith
  | sub =>
      simp only [opCondition] at hc
      simp only [applyOp]
      omega
  | mul =>
      simp only [applyOp]
      exact mul_pos ha hb
  | div =>
      simp only [opCondition] at hc
      exact fdiv_pos_of_emod_eq_zero ha hb hc.1

/-- C3: for a well-formed puzzle, every move yielded by `legalmoves` can
be applied by `move`/`copy_and_move` without raising, and unless a
forced operand is active the first operand of the pair is at least the
second. -/
theorem legalmoves_valid {p : DigitsPuzzle} (hp : WF p) {m : Move}
    (hm : m ∈ p.legalmoves) :
    (p.move m).isSome = true ∧ (p.copy_and_move m).isSome = true ∧
      (forcedActive p = false → m.2.2 ≤ m.2.1) := by
  obtain ⟨hab, _⟩ := legalmoves_mem hm
  have hpos := legalmove_result_pos hp.2.1 hm
  obtain ⟨op, a, b⟩ := m
  obtain ⟨ha, hb⟩ := sourcecombos_mem hab
  have hmv := move_eq_of_pos ha hb hpos
  refine ⟨by rw [hmv]; rfl, ?_, ?_⟩
  · unfold DigitsPuzzle.copy_and_move
    rw [clone_eq_self hp, Option.some_bind, hmv]
    rfl
  · intro hfa
    rw [sourcecombos_unforced hfa] at hab
    exact combinations2_ge hp.2.2 hab

/-- Closed witness for `legalmoves_valid` at a concrete puzzle and
move. -/
theorem legalmoves_valid_witness :
    WF ⟨10, [14, 3, 2], .free⟩ ∧
    (Op.div, (14, 2)) ∈ (DigitsPuzzle.legalmoves ⟨10, [14, 3, 2], .free⟩) ∧
    ((DigitsPuzzle.move ⟨10, [14, 3, 2], .free⟩ (Op.div, (14, 2))).isSome
        = true ∧
      (DigitsPuzzle.copy_and_move ⟨10, [14, 3, 2], .free⟩
          (Op.div, (14, 2))).isSome = true ∧
      (forcedActive ⟨10, [14, 3, 2], .free⟩ = false →
        (2 : Int) ≤ 14)) :=
  ⟨by decide, by decide, legalmoves_valid (by decide) (by decide)⟩

/-- Closed witness for `sourcecombos_forced` with a duplicated forced
value: exactly one of the two 7s is excluded from pairing. -/
theorem sourcecombos_forced_witness :
    (⟨10, [7, 7, 3], .value 7⟩ : DigitsPuzzle).forced_operand =
        ForcedOp.value 7 ∧
    (7 : Int) ∈ (⟨10, [7, 7, 3], .value 7⟩ : DigitsPuzzle).sources ∧
    DigitsPuzzle.sourcecombos ⟨10, [7, 7, 3], .value 7⟩ =
      ((⟨10, [7, 7, 3], .value 7⟩ : DigitsPuzzle).sources.erase 7).map
        fun b => ((7 : Int), b) :=
  ⟨rfl, by decide, sourcecombos_forced rfl (by decide)⟩

theorem mk_some_facts {t : Int} {l : List Int} {fo : ForcedOp}
    {q : DigitsPuzzle} (h : mkDigitsPuzzle t l fo = Option.some q) :
    q = ⟨t, sortDesc l, fo⟩ ∧ WF q := by
  unfold mkDigitsPuzzle at h
  split at h
  · cases h
  · next s hs =>
      split at h
      · cases h
      · next hpos0 =>
          cases h
          have hne : sortDesc l ≠ [] := by
            intro hcon
            rw [hcon] at hs
            cases hs
          have hlast : s = (sortDesc l).getLast hne := by
            rw [List.getLast?_eq_getLast _ hne] at hs
            cases hs
            rfl
          refine ⟨rfl, hne, ?_, sortDesc_sorted l⟩
          intro x hx
          have hle := sorted_ge_getLast_le (sortDesc_sorted l) hne hx
          rw [← hlast] at hle
          omega

theorem move_target {p q : DigitsPuzzle} {m : Move}
    (h : p.move m = Option.some q) : q.target = p.target := by
  obtain ⟨op, a, b⟩ := m
  obtain ⟨-, -, -, rfl⟩ := move_some_inv h
  rfl

theorem clone_target {p c : DigitsPuzzle} (h : p.clone = Option.some c) :
    c.target = p.target := by
  unfold DigitsPuzzle.clone at h
  rw [(mk_some_facts h).1]

theorem cam_target (p : DigitsPuzzle) (m : Move) :
    (cam p m).target = p.target := by
  unfold cam DigitsPuzzle.copy_and_move
  match hc : p.clone with
  | Option.none => rfl
  | Option.some c =>
      simp only [Option.some_bind]
      match hm2 : c.move m with
      | Option.none => rfl
      | Option.some q =>
          simpa using (move_target hm2).trans (clone_target hc)

theorem cam_eq {p : DigitsPuzzle} (hp : WF p) {m : Move}
    (hm : m ∈ p.legalmoves) :
    cam p m = ⟨p.target,
      sortDesc (((p.sources.erase m.2.1).erase m.2.2) ++
        [applyOp m.1 m.2.1 m.2.2]),
      if p.forced_operand.truthy then ForcedOp.value (applyOp m.1 m.2.1 m.2.2)
      else p.forced_operand⟩ := by
  obtain ⟨hab, -⟩ := legalmoves_mem hm
  have hpos := legalmove_result_pos hp.2.1 hm
  obtain ⟨op, a, b⟩ := m
  obtain ⟨ha, hb⟩ := sourcecombos_mem hab
  unfold cam DigitsPuzzle.copy_and_move
  rw [clone_eq_self hp, Option.some_bind, move_eq_of_pos ha hb hpos]
  rfl

theorem cam_WF {p : DigitsPuzzle} (hp : WF p) {m : Move}
    (hm : m ∈ p.legalmoves) : WF (cam p m) := by
  rw [cam_eq hp hm]
  refine ⟨?_, ?_, sortDesc_sorted _⟩
  · have hmem : applyOp m.1 m.2.1 m.2.2 ∈
        sortDesc (((p.sources.erase m.2.1).erase m.2.2) ++
          [applyOp m.1 m.2.1 m.2.2]) :=
      mem_sortDesc.mpr (List.mem_append_right _ (List.mem_singleton_self _))
    exact List.ne_nil_of_mem hmem
  · intro x hx
    rw [mem_sortDesc] at hx
    rcases List.mem_append.mp hx with h2 | h1
    · exact hp.2.1 x (List.erase_subset _ _ (List.erase_subset _ _ h2))
    · rw [List.mem_singleton.mp h1]
      exact legalmove_result_pos hp.2.1 hm

theorem cam_length {p : DigitsPuzzle} (hp : WF p) {m : Move}
    (hm : m ∈ p.legalmoves) :
    (cam p m).sources.length + 1 = p.sources.length := by
  obtain ⟨hab, -⟩ := legalmoves_mem hm
  obtain ⟨ha, hb⟩ := sourcecombos_mem hab
  have hlen1 := List.length_pos_of_mem ha
  have hlen2 := List.length_pos_of_mem hb
  rw [List.length_erase_of_mem ha] at hlen2
  rw [cam_eq hp hm]
  show (sortDesc _).length + 1 = _
  rw [length_sortDesc, List.length_append, List.length_erase_of_mem hb,
      List.length_erase_of_mem ha, List.length_singleton]
  omega

theorem legalmoves_len2 {p : DigitsPuzzle} {m : Move}
    (hm : m ∈ p.legalmoves) : 2 ≤ p.sources.length := by
  obtain ⟨hab, -⟩ := legalmoves_mem hm
  obtain ⟨ha, hb⟩ := sourcecombos_mem hab
  have h1 := List.length_pos_of_mem ha
  have h2 := List.length_pos_of_mem hb
  rw [List.length_erase_of_mem ha] at h2
  omega

theorem legalmoves_eq_nil {p : DigitsPuzzle} (h : p.sources.length ≤ 1) :
    p.legalmoves = [] := by
  by_contra hne
  obtain ⟨m, hm⟩ := List.exists_mem_of_ne_nil _ hne
  have := legalmoves_len2 hm
  omega

/-- C9: every value in `sources` is strictly positive at all times:
constructing a puzzle from a non-empty source list raises exactly when
some supplied value is non-positive (never silently clamped), and a
successful `move` never inserts a non-positive result. -/
theorem sources_positive :
    (∀ (t : Int) (l : List Int) (fo : ForcedOp), l ≠ [] →
        (mkDigitsPuzzle t l fo = Option.none ↔ ∃ x ∈ l, x ≤ 0)) ∧
    (∀ (p q : DigitsPuzzle) (m : Move), (∀ x ∈ p.sources, 0 < x) →
        p.move m = Option.some q → ∀ x ∈ q.sources, 0 < x) := by
  constructor
  · intro t l fo hne
    have hne2 : sortDesc l ≠ [] := by
      intro hcon
      have hlen := length_sortDesc l
      rw [hcon] at hlen
      exact hne (List.length_eq_zero.mp hlen.symm)
    unfold mkDigitsPuzzle
    rw [List.getLast?_eq_getLast _ hne2]
    constructor
    · intro h
      by_cases hs : (sortDesc l).getLast hne2 ≤ 0
      · exact ⟨_, mem_sortDesc.mp (List.getLast_mem hne2), hs⟩
      · simp [hs] at h
    · rintro ⟨x, hx, hx0⟩
      have hle := sorted_ge_getLast_le (sortDesc_sorted l) hne2
          (mem_sortDesc.mpr hx)
      have hlast : (sortDesc l).getLast hne2 ≤ 0 := le_trans hle hx0
      simp [hlast]
  · intro p q m hpos hmv
    obtain ⟨op, a, b⟩ := m
    obtain ⟨ha, hb, hr, rfl⟩ := move_some_inv hmv
    intro x hx
    rw [show (⟨p.target,
        sortDesc (((p.sources.erase a).erase b) ++ [applyOp op a b]),
        if p.forced_operand.truthy then ForcedOp.value (applyOp op a b)
        else p.forced_operand⟩ : DigitsPuzzle).sources =
          sortDesc (((p.sources.erase a).erase b) ++ [applyOp op a b])
      from rfl, mem_sortDesc] at hx
    rcases List.mem_append.mp hx with h2 | h1
    · exact hpos x (List.erase_subset _ _ (List.erase_subset _ _ h2))
    · rw [List.mem_singleton.mp h1]
      exact hr

/-- Closed witness for `sources_positive`: a negative source makes the
constructor raise, and a concrete successful move yields only positive
sources. -/
theorem sources_positive_witness :
    mkDigitsPuzzle 10 [3, -1] .free = Option.none ∧
    ∀ x ∈ (⟨10, [10], .free⟩ : DigitsPuzzle).sources, 0 < x :=
  ⟨(sources_positive.1 10 [3, -1] .free (by decide)).mpr
      ⟨-1, by decide, by decide⟩,
   sources_positive.2 ⟨10, [7, 3], .free⟩ ⟨10, [10], .free⟩ (Op.add, (7, 3))
      (by decide) (by decide)⟩

/-- C10: when `move` raises because the computed result is non-positive,
the receiver has already lost one occurrence of each operand, the result
is not inserted, and the forced operand is unchanged: `move` is not
atomic on the instance it is invoked on. -/
theorem move_err_state {p : DigitsPuzzle} {op : Op} {a b : Int}
    (ha : a ∈ p.sources) (hb : b ∈ p.sources.erase a)
    (hres : applyOp op a b ≤ 0) :
    p.moveImpl (op, (a, b)) =
      .err ⟨p.target, (p.sources.erase a).erase b, p.forced_operand⟩ := by
  unfold DigitsPuzzle.moveImpl
  simp only [ha, if_pos, hb, hres, if_true]

/-- Closed witness for `move_err_state`: the receiver is left with both
13 and 14 removed when `sub (13, 14)` raises (cf. `test8` in the repo's
tests). -/
theorem move_err_state_witness :
    DigitsPuzzle.moveImpl ⟨10, [14, 13, 13, 3, 2], .free⟩
        (Op.sub, (13, 14)) =
      .err ⟨10, [13, 3, 2], .free⟩ :=
  move_err_state (by decide) (by decide) (by decide)

/-- C1 (amended): two well-formed puzzles have equal canonical states iff
they agree on the multiset of sources and on the forced-operand value;
the target does not participate in the canonical state. -/
theorem canonicalstate_eq_iff {p q : DigitsPuzzle} (hp : WF p) (hq : WF q) :
    p.canonicalstate = q.canonicalstate ↔
      ((p.sources : Multiset Int) = (q.sources : Multiset Int) ∧
        p.forced_operand = q.forced_operand) := by
  unfold DigitsPuzzle.canonicalstate
  constructor
  · intro h
    rw [Prod.mk.injEq] at h
    exact ⟨by rw [h.1], h.2⟩
  · rintro ⟨h1, h2⟩
    have hperm : List.Perm p.sources q.sources := Multiset.coe_eq_coe.mp h1
    have hss : p.sources = q.sources :=
      List.eq_of_perm_of_sorted hperm hp.2.2 hq.2.2
    rw [hss, h2]

/-- Closed witness for `canonicalstate_eq_iff` at two independently built
well-formed puzzles. -/
theorem canonicalstate_eq_iff_witness :
    WF (⟨5, [7, 3], .free⟩ : DigitsPuzzle) ∧
    (DigitsPuzzle.canonicalstate ⟨5, [7, 3], .free⟩ =
        DigitsPuzzle.canonicalstate ⟨9, [7, 3], .free⟩ ↔
      (((⟨5, [7, 3], .free⟩ : DigitsPuzzle).sources : Multiset Int) =
          ((⟨9, [7, 3], .free⟩ : DigitsPuzzle).sources : Multiset Int) ∧
        (⟨5, [7, 3], .free⟩ : DigitsPuzzle).forced_operand =
          (⟨9, [7, 3], .free⟩ : DigitsPuzzle).forced_operand)) :=
  ⟨by decide, canonicalstate_eq_iff (by decide) (by decide)⟩

/-- C1 counterexample: two well-formed puzzles that differ in target (and
nothing else) nevertheless have equal canonical states — the canonical
state does not include the target. -/
theorem canonicalstate_ignores_target :
    DigitsPuzzle.canonicalstate ⟨5, [7, 3], .free⟩ =
      DigitsPuzzle.canonicalstate ⟨10, [7, 3], .free⟩ ∧
    (⟨5, [7, 3], .free⟩ : DigitsPuzzle).target ≠
      (⟨10, [7, 3], .free⟩ : DigitsPuzzle).target ∧
    WF ⟨5, [7, 3], .free⟩ ∧ WF ⟨10, [7, 3], .free⟩ :=
  ⟨rfl, by decide, by decide, by decide⟩

theorem storeClone_some {σ : Store} {r : Ref} {p c : DigitsPuzzle}
    (hr : σ.get? r = Option.some p) (hc : p.clone = Option.some c) :
    storeClone σ r = (σ ++ [c], Option.some σ.length) := by
  unfold storeClone
  rw [hr]
  show (match p.clone with
    | Option.none => (σ, Option.none)
    | Option.some c => (σ ++ [c], Option.some σ.length)) = _
  rw [hc]

theorem storeClone_none {σ : Store} {r : Ref} {p : DigitsPuzzle}
    (hr : σ.get? r = Option.some p) (hc : p.clone = Option.none) :
    storeClone σ r = (σ, Option.none) := by
  unfold storeClone
  rw [hr]
  show (match p.clone with
    | Option.none => (σ, Option.none)
    | Option.some c => (σ ++ [c], Option.some σ.length)) = _
  rw [hc]

theorem storeMove_eq {σ : Store} {r : Ref} {c : DigitsPuzzle} (m : Move)
    (hr : σ.get? r = Option.some c) :
    storeMove σ r m = match c.moveImpl m with
      | .ok q => (σ.set r q, Option.some r)
      | .err q => (σ.set r q, Option.none) := by
  unfold storeMove
  rw [hr]

/-- C8: `copy_and_move` leaves the receiver object bit-for-bit unchanged
(for any move, legal or illegal, including ones that make `move` raise),
hands back a reference distinct from the receiver's, and later mutation
of the returned object still leaves the receiver unchanged. -/
theorem copy_and_move_frame {σ : Store} {r : Ref} {p : DigitsPuzzle}
    (m : Move) (hr : σ.get? r = Option.some p) :
    (store_copy_and_move σ r m).1.get? r = Option.some p ∧
    ∀ r2, (store_copy_and_move σ r m).2 = Option.some r2 →
      r2 ≠ r ∧ ∀ m2 : Move,
        (storeMove (store_copy_and_move σ r m).1 r2 m2).1.get? r
          = Option.some p := by
  have hrlt : r < σ.length := by
    by_contra hge
    rw [List.get?_eq_none.mpr (le_of_not_lt hge)] at hr
    cases hr
  match hc : p.clone with
  | Option.none =>
      have hsc : store_copy_and_move σ r m = (σ, Option.none) := by
        unfold store_copy_and_move
        rw [storeClone_none hr hc]
      rw [hsc]
      exact ⟨hr, fun r2 h2 => by simp at h2⟩
  | Option.some c =>
      have hcl : (σ ++ [c]).get? σ.length = Option.some c :=
        List.get?_concat_length σ c
      have hgr : (σ ++ [c]).get? r = Option.some p := by
        rw [List.get?_append hrlt]
        exact hr
      match ho : c.moveImpl m with
      | .ok q =>
          have hsc : store_copy_and_move σ r m =
              ((σ ++ [c]).set σ.length q, Option.some σ.length) := by
            unfold store_copy_and_move
            rw [storeClone_some hr hc]
            show storeMove (σ ++ [c]) σ.length m = _
            rw [storeMove_eq m hcl, ho]
          rw [hsc]
          have hpr : ((σ ++ [c]).set σ.length q).get? r = Option.some p := by
            rw [List.get?_set_ne _ _ (Nat.ne_of_gt hrlt)]
            exact hgr
          refine ⟨hpr, ?_⟩
          intro r2 h2
          have hr2 : σ.length = r2 := by simpa using h2
          subst hr2
          refine ⟨Nat.ne_of_gt hrlt, ?_⟩
          intro m2
          have hq : ((σ ++ [c]).set σ.length q).get? σ.length
              = Option.some q := by
            rw [List.get?_set_eq, hcl]
            rfl
          rw [storeMove_eq m2 hq]
          match q.moveImpl m2 with
          | .ok q2 =>
              show (((σ ++ [c]).set σ.length q).set σ.length q2).get? r = _
              rw [List.get?_set_ne _ _ (Nat.ne_of_gt hrlt)]
              exact hpr
          | .err q2 =>
              show (((σ ++ [c]).set σ.length q).set σ.length q2).get? r = _
              rw [List.get?_set_ne _ _ (Nat.ne_of_gt hrlt)]
              exact hpr
      | .err q =>
          have hsc : store_copy_and_move σ r m =
              ((σ ++ [c]).set σ.length q, Option.none) := by
            unfold store_copy_and_move
            rw [storeClone_some hr hc]
            show storeMove (σ ++ [c]) σ.length m = _
            rw [storeMove_eq m hcl, ho]
          rw [hsc]
          refine ⟨?_, fun r2 h2 => by simp at h2⟩
          rw [List.get?_set_ne _ _ (Nat.ne_of_gt hrlt)]
          exact hgr

/-- Closed witness for `copy_and_move_frame` at a one-object store. -/
theorem copy_and_move_frame_witness :
    ([⟨10, [7, 3], .free⟩] : Store).get? 0 =
        Option.some ⟨10, [7, 3], .free⟩ ∧
    ((store_copy_and_move [⟨10, [7, 3], .free⟩] 0 (Op.add, (7, 3))).1.get? 0 =
        Option.some ⟨10, [7, 3], .free⟩ ∧
      ∀ r2, (store_copy_and_move [⟨10, [7, 3], .free⟩] 0
            (Op.add, (7, 3))).2 = Option.some r2 →
        r2 ≠ 0 ∧ ∀ m2 : Move,
          (storeMove (store_copy_and_move [⟨10, [7, 3], .free⟩] 0
              (Op.add, (7, 3))).1 r2 m2).1.get? 0
            = Option.some ⟨10, [7, 3], .free⟩) :=
  ⟨by decide, copy_and_move_frame _ (by decide)⟩

/-! ## Properties of one pass of the solver's inner move loop -/

theorem canonicalstate_inj {p q : DigitsPuzzle} (ht : p.target = q.target)
    (hc : p.canonicalstate = q.canonicalstate) : p = q := by
  cases p with | mk t1 s1 f1 =>
  cases q with | mk t2 s2 f2 =>
  simp only [DigitsPuzzle.canonicalstate, Prod.mk.injEq] at hc
  simp only at ht
  simp [DigitsPuzzle.mk.injEq, ht, hc.1, hc.2]

theorem processMoves_st_eq (z : DigitsPuzzle) (trail : List Move)
    (st : List CanonState) (ms : List Move) :
    (processMoves z trail st ms).2.1 =
      st ++ ((processMoves z trail st ms).2.2.map
        fun e => e.1.canonicalstate) := by
  induction ms generalizing st with
  | nil => simp [processMoves]
  | cons m ms ih =>
    by_cases h1 : (cam z m).canonicalstate ∈ st
    · simp only [processMoves, h1, if_pos]
      exact ih st
    · by_cases h2 : (cam z m).endstate = true
      · simp only [processMoves, h1, if_neg, h2, if_true, not_false_iff]
        exact ih st
      · simp only [processMoves, h1, if_neg, h2, if_false, not_false_iff,
          Bool.not_eq_true]
        rw [ih (st ++ [(cam z m).canonicalstate])]
        simp

theorem processMoves_st_subset (z : DigitsPuzzle) (trail : List Move)
    (st : List CanonState) (ms : List Move) :
    st ⊆ (processMoves z trail st ms).2.1 := by
  rw [processMoves_st_eq]
  exact List.subset_append_left _ _

theorem processMoves_es (z : DigitsPuzzle) (trail : List Move)
    (st : List CanonState) (ms : List Move) :
    ∀ e ∈ (processMoves z trail st ms).2.2, e.1.endstate = false ∧
      (∃ m ∈ ms, e.1 = cam z m ∧ e.2 = trail ++ [m]) ∧
      e.1.canonicalstate ∉ st := by
  induction ms generalizing st with
  | nil => intro e he; simp [processMoves] at he
  | cons m ms ih =>
    intro e he
    by_cases h1 : (cam z m).canonicalstate ∈ st
    · simp only [processMoves, h1, if_pos] at he
      obtain ⟨hend, ⟨m2, hm2, he2⟩, hnotin⟩ := ih st e he
      exact ⟨hend, ⟨m2, List.mem_cons_of_mem _ hm2, he2⟩, hnotin⟩
    · by_cases h2 : (cam z m).endstate = true
      · simp only [processMoves, h1, if_neg, h2, if_true, not_false_iff] at he
        obtain ⟨hend, ⟨m2, hm2, he2⟩, hnotin⟩ := ih st e he
        exact ⟨hend, ⟨m2, List.mem_cons_of_mem _ hm2, he2⟩, hnotin⟩
      · simp only [processMoves, h1, if_neg, h2, if_false, not_false_iff,
          Bool.not_eq_true] at he
        rcases List.mem_cons.mp he with rfl | he2
        · refine ⟨by simpa using h2, ⟨m, List.mem_cons_self _ _, rfl, rfl⟩, h1⟩
        · obtain ⟨hend, ⟨m2, hm2, hee⟩, hnotin⟩ :=
            ih (st ++ [(cam z m).canonicalstate]) e he2
          refine ⟨hend, ⟨m2, List.mem_cons_of_mem _ hm2, hee⟩, ?_⟩
          intro hcon
          exact hnotin (List.mem_append_left _ hcon)

theorem processMoves_sols (z : DigitsPuzzle) (trail : List Move)
    (st : List CanonState) (ms : List Move) :
    ∀ sl ∈ (processMoves z trail st ms).1, ∃ m ∈ ms, sl = trail ++ [m] ∧
      (cam z m).endstate = true ∧ (cam z m).canonicalstate ∉ st := by
  induction ms generalizing st with
  | nil => intro sl hsl; simp [processMoves] at hsl
  | cons m ms ih =>
    intro sl hsl
    by_cases h1 : (cam z m).canonicalstate ∈ st
    · simp only [processMoves, h1, if_pos] at hsl
      obtain ⟨m2, hm2, h⟩ := ih st sl hsl
      exact ⟨m2, List.mem_cons_of_mem _ hm2, h⟩
    · by_cases h2 : (cam z m).endstate = true
      · simp only [processMoves, h1, if_neg, h2, if_true, not_false_iff] at hsl
        rcases List.mem_cons.mp hsl with rfl | hsl2
        · exact ⟨m, List.mem_cons_self _ _, rfl, h2, h1⟩
        · obtain ⟨m2, hm2, h⟩ := ih st sl hsl2
          exact ⟨m2, List.mem_cons_of_mem _ hm2, h⟩
      · simp only [processMoves, h1, if_neg, h2, if_false, not_false_iff,
          Bool.not_eq_true] at hsl
        obtain ⟨m2, hm2, heq, hend, hnotin⟩ :=
          ih (st ++ [(cam z m).canonicalstate]) sl hsl
        refine ⟨m2, List.mem_cons_of_mem _ hm2, heq, hend, ?_⟩
        intro hcon
        exact hnotin (List.mem_append_left _ hcon)

theorem processMoves_nonend_mem_st (z : DigitsPuzzle) (trail : List Move)
    (st : List CanonState) (ms : List Move) :
    ∀ m ∈ ms, (cam z m).endstate = false →
      (cam z m).canonicalstate ∈ (processMoves z trail st ms).2.1 := by
  induction ms generalizing st with
  | nil => intro m hm; cases hm
  | cons m0 ms ih =>
    intro m hm hend
    by_cases h1 : (cam z m0).canonicalstate ∈ st
    · simp only [processMoves, h1, if_pos]
      rcases List.mem_cons.mp hm with rfl | hm2
      · exact processMoves_st_subset _ _ _ _ h1
      · exact ih st m hm2 hend
    · by_cases h2 : (cam z m0).endstate = true
      · simp only [processMoves, h1, if_neg, h2, if_true, not_false_iff]
        rcases List.mem_cons.mp hm with rfl | hm2
        · rw [hend] at h2; cases h2
        · exact ih st m hm2 hend
      · simp only [processMoves, h1, if_neg, h2, if_false, not_false_iff,
          Bool.not_eq_true]
        rcases List.mem_cons.mp hm with rfl | hm2
        · exact processMoves_st_subset _ _ _ _
            (List.mem_append_right _ (List.mem_singleton_self _))
        · exact ih (st ++ [(cam z m0).canonicalstate]) m hm2 hend

theorem processMoves_nonend_enqueued (z : DigitsPuzzle) (trail : List Move)
    (st : List CanonState) (ms : List Move) :
    ∀ m ∈ ms, (cam z m).endstate = false →
      (cam z m).canonicalstate ∉ st →
      ∃ t2, (cam z m, t2) ∈ (processMoves z trail st ms).2.2 := by
  induction ms generalizing st with
  | nil => intro m hm; cases hm
  | cons m0 ms ih =>
    intro m hm hend hnotin
    by_cases h1 : (cam z m0).canonicalstate ∈ st
    · simp only [processMoves, h1, if_pos]
      rcases List.mem_cons.mp hm with rfl | hm2
      · exact absurd h1 hnotin
      · exact ih st m hm2 hend hnotin
    · by_cases h2 : (cam z m0).endstate = true
      · simp only [processMoves, h1, if_neg, h2, if_true, not_false_iff]
        rcases List.mem_cons.mp hm with rfl | hm2
        · rw [hend] at h2; cases h2
        · exact ih st m hm2 hend hnotin
      · simp only [processMoves, h1, if_neg, h2, if_false, not_false_iff,
          Bool.not_eq_true]
        rcases List.mem_cons.mp hm with rfl | hm2
        · exact ⟨trail ++ [m], List.mem_cons_self _ _⟩
        · by_cases heq : (cam z m).canonicalstate = (cam z m0).canonicalstate
          · have : cam z m = cam z m0 := canonicalstate_inj
              (by rw [cam_target, cam_target]) heq
            exact ⟨trail ++ [m0], by rw [this]; exact List.mem_cons_self _ _⟩
          · have hnotin2 : (cam z m).canonicalstate ∉
                st ++ [(cam z m0).canonicalstate] := by
              intro hcon
              rcases List.mem_append.mp hcon with h | h
              · exact hnotin h
              · exact heq (List.mem_singleton.mp h)
            obtain ⟨t2, ht2⟩ := ih (st ++ [(cam z m0).canonicalstate]) m hm2
              hend hnotin2
            exact ⟨t2, List.mem_cons_of_mem _ ht2⟩

theorem processMoves_end_yielded (z : DigitsPuzzle) (trail : List Move)
    (st : List CanonState) (ms : List Move) :
    ∀ m ∈ ms, (cam z m).endstate = true →
      (cam z m).canonicalstate ∉ st →
      (trail ++ [m]) ∈ (processMoves z trail st ms).1 := by
  induction ms generalizing st with
  | nil => intro m hm; cases hm
  | cons m0 ms ih =>
    intro m hm hend hnotin
    by_cases h1 : (cam z m0).canonicalstate ∈ st
    · simp only [processMoves, h1, if_pos]
      rcases List.mem_cons.mp hm with rfl | hm2
      · exact absurd h1 hnotin
      · exact ih st m hm2 hend hnotin
    · by_cases h2 : (cam z m0).endstate = true
      · simp only [processMoves, h1, if_neg, h2, if_true, not_false_iff]
        rcases List.mem_cons.mp hm with rfl | hm2
        · exact List.mem_cons_self _ _
        · exact List.mem_cons_of_mem _ (ih st m hm2 hend hnotin)
      · simp only [processMoves, h1, if_neg, h2, if_false, not_false_iff,
          Bool.not_eq_true]
        rcases List.mem_cons.mp hm with rfl | hm2
        · exact absurd hend h2
        · by_cases heq : (cam z m).canonicalstate = (cam z m0).canonicalstate
          · have hpe : cam z m = cam z m0 := canonicalstate_inj
              (by rw [cam_target, cam_target]) heq
            exact absurd (hpe ▸ hend) h2
          · have hnotin2 : (cam z m).canonicalstate ∉
                st ++ [(cam z m0).canonicalstate] := by
              intro hcon
              rcases List.mem_append.mp hcon with h | h
              · exact hnotin h
              · exact heq (List.mem_singleton.mp h)
            exact ih (st ++ [(cam z m0).canonicalstate]) m hm2 hend hnotin2

theorem processMoves_st_nodup (z : DigitsPuzzle) (trail : List Move)
    (st : List CanonState) (ms : List Move) (hnd : st.Nodup) :
    (processMoves z trail st ms).2.1.Nodup := by
  induction ms generalizing st with
  | nil => simpa [processMoves] using hnd
  | cons m ms ih =>
    by_cases h1 : (cam z m).canonicalstate ∈ st
    · simp only [processMoves, h1, if_pos]
      exact ih st hnd
    · by_cases h2 : (cam z m).endstate = true
      · simp only [processMoves, h1, if_neg, h2, if_true, not_false_iff]
        exact ih st hnd
      · simp only [processMoves, h1, if_neg, h2, if_false, not_false_iff,
          Bool.not_eq_true]
        refine ih (st ++ [(cam z m).canonicalstate]) ?_
        rw [List.nodup_append]
        exact ⟨hnd, List.nodup_singleton _, by simpa using h1⟩

/-! ## Properties of one breadth-first layer -/

theorem processLayer_st_eq (st : List CanonState) (F : List Entry) :
    (processLayer st F).2.1 =
      st ++ ((processLayer st F).2.2.map fun e => e.1.canonicalstate) := by
  induction F generalizing st with
  | nil => simp [processLayer]
  | cons e es ih =>
    obtain ⟨z, trail⟩ := e
    simp only [processLayer]
    rw [ih, processMoves_st_eq]
    simp

theorem processLayer_st_subset (st : List CanonState) (F : List Entry) :
    st ⊆ (processLayer st F).2.1 := by
  rw [processLayer_st_eq]
  exact List.subset_append_left _ _

theorem processLayer_ch (st : List CanonState) (F : List Entry) :
    ∀ e ∈ (processLayer st F).2.2, ∃ zt ∈ F, ∃ m ∈ zt.1.legalmoves,
      e.1 = cam zt.1 m ∧ e.2 = zt.2 ++ [m] ∧ e.1.endstate = false ∧
      e.1.canonicalstate ∉ st := by
  induction F generalizing st with
  | nil => intro e he; simp [processLayer] at he
  | cons e0 es ih =>
    obtain ⟨z, trail⟩ := e0
    intro e he
    simp only [processLayer] at he
    rcases List.mem_append.mp he with h | h
    · obtain ⟨hend, ⟨m, hm, he1, he2⟩, hnotin⟩ :=
        processMoves_es z trail st z.legalmoves e h
      exact ⟨(z, trail), List.mem_cons_self _ _, m, hm, he1, he2, hend, hnotin⟩
    · obtain ⟨zt, hzt, m, hm, he1, he2, hend, hnotin⟩ := ih _ e h
      refine ⟨zt, List.mem_cons_of_mem _ hzt, m, hm, he1, he2, hend, ?_⟩
      intro hcon
      exact hnotin (processMoves_st_subset z trail st z.legalmoves hcon)

theorem processLayer_sols (st : List CanonState) (F : List Entry) :
    ∀ sl ∈ (processLayer st F).1, ∃ zt ∈ F, ∃ m ∈ zt.1.legalmoves,
      sl = zt.2 ++ [m] ∧ (cam zt.1 m).endstate = true ∧
      (cam zt.1 m).canonicalstate ∉ st := by
  induction F generalizing st with
  | nil => intro sl hsl; simp [processLayer] at hsl
  | cons e0 es ih =>
    obtain ⟨z, trail⟩ := e0
    intro sl hsl
    simp only [processLayer] at hsl
    rcases List.mem_append.mp hsl with h | h
    · obtain ⟨m, hm, heq, hend, hnotin⟩ :=
        processMoves_sols z trail st z.legalmoves sl h
      exact ⟨(z, trail), List.mem_cons_self _ _, m, hm, heq, hend, hnotin⟩
    · obtain ⟨zt, hzt, m, hm, heq, hend, hnotin⟩ := ih _ sl h
      refine ⟨zt, List.mem_cons_of_mem _ hzt, m, hm, heq, hend, ?_⟩
      intro hcon
      exact hnotin (processMoves_st_subset z trail st z.legalmoves hcon)

theorem processLayer_nonend_mem_st (st : List CanonState) (F : List Entry) :
    ∀ zt ∈ F, ∀ m ∈ zt.1.legalmoves, (cam zt.1 m).endstate = false →
      (cam zt.1 m).canonicalstate ∈ (processLayer st F).2.1 := by
  induction F generalizing st with
  | nil => intro zt hzt; cases hzt
  | cons e0 es ih =>
    obtain ⟨z, trail⟩ := e0
    intro zt hzt m hm hend
    simp only [processLayer]
    rcases List.mem_cons.mp hzt with rfl | hzt2
    · exact processLayer_st_subset _ es
        (processMoves_nonend_mem_st z trail st z.legalmoves m hm hend)
    · exact ih _ zt hzt2 m hm hend

/-- During one layer, a non-end child whose canonical state is new at the
start of the layer ends up on the next layer's frontier (possibly via a
sibling entry reaching the same canonical state first).  Requires all
entries of the layer to share one target value. -/
theorem processLayer_nonend_enqueued {T : Int} (st : List CanonState)
    (F : List Entry) (hT : ∀ e ∈ F, e.1.target = T) :
    ∀ zt ∈ F, ∀ m ∈ zt.1.legalmoves, (cam zt.1 m).endstate = false →
      (cam zt.1 m).canonicalstate ∉ st →
      ∃ t2, (cam zt.1 m, t2) ∈ (processLayer st F).2.2 := by
  induction F generalizing st with
  | nil => intro zt hzt; cases hzt
  | cons e0 es ih =>
    obtain ⟨z, trail⟩ := e0
    intro zt hzt m hm hend hnotin
    simp only [processLayer]
    rcases List.mem_cons.mp hzt with rfl | hzt2
    · obtain ⟨t2, ht2⟩ := processMoves_nonend_enqueued z trail st
        z.legalmoves m hm hend hnotin
      exact ⟨t2, List.mem_append_left _ ht2⟩
    · set st1 := (processMoves z trail st z.legalmoves).2.1 with hst1
      by_cases hin : (cam zt.1 m).canonicalstate ∈ st1
      · rw [hst1, processMoves_st_eq] at hin
        rcases List.mem_append.mp hin with h | h
        · exact absurd h hnotin
        · simp only [List.mem_map] at h
          obtain ⟨e2, he2, hce⟩ := h
          obtain ⟨hend2, ⟨m2, hm2, he21, _⟩, -⟩ :=
            processMoves_es z trail st z.legalmoves e2 he2
          have hpe : e2.1 = cam zt.1 m := by
            refine canonicalstate_inj ?_ hce
            rw [he21, cam_target, cam_target]
            rw [hT (z, trail) (List.mem_cons_self _ _),
              hT zt (List.mem_cons_of_mem _ hzt2)]
          exact ⟨e2.2, List.mem_append_left _ (by
            rw [← hpe]
            simpa using he2)⟩
      · obtain ⟨t2, ht2⟩ := ih st1
          (fun e he => hT e (List.mem_cons_of_mem _ he)) zt hzt2 m hm hend hin
        exact ⟨t2, List.mem_append_right _ ht2⟩

/-- During one layer, an end-state child whose canonical state is new at
the start of the layer is yielded as a solution.  (The visited set only
ever grows by canonical states of non-end children, which cannot collide
with an end state's canonical state.) -/
theorem processLayer_end_yielded {T : Int} (st : List CanonState)
    (F : List Entry) (hT : ∀ e ∈ F, e.1.target = T) :
    ∀ zt ∈ F, ∀ m ∈ zt.1.legalmoves, (cam zt.1 m).endstate = true →
      (cam zt.1 m).canonicalstate ∉ st →
      (zt.2 ++ [m]) ∈ (processLayer st F).1 := by
  induction F generalizing st with
  | nil => intro zt hzt; cases hzt
  | cons e0 es ih =>
    obtain ⟨z, trail⟩ := e0
    intro zt hzt m hm hend hnotin
    simp only [processLayer]
    rcases List.mem_cons.mp hzt with rfl | hzt2
    · exact List.mem_append_left _
        (processMoves_end_yielded z trail st z.legalmoves m hm hend hnotin)
    · set st1 := (processMoves z trail st z.legalmoves).2.1 with hst1
      have hnotin1 : (cam zt.1 m).canonicalstate ∉ st1 := by
        rw [hst1, processMoves_st_eq]
        intro hcon
        rcases List.mem_append.mp hcon with h | h
        · exact hnotin h
        · simp only [List.mem_map] at h
          obtain ⟨e2, he2, hce⟩ := h
          obtain ⟨hend2, ⟨m2, hm2, he21, -⟩, -⟩ :=
            processMoves_es z trail st z.legalmoves e2 he2
          have hpe : e2.1 = cam zt.1 m := by
            refine canonicalstate_inj ?_ hce
            rw [he21, cam_target, cam_target]
            rw [hT (z, trail) (List.mem_cons_self _ _),
              hT zt (List.mem_cons_of_mem _ hzt2)]
          rw [hpe, hend] at hend2
          cases hend2
      exact List.mem_append_right _ (ih st1
        (fun e he => hT e (List.mem_cons_of_mem _ he)) zt hzt2 m hm hend
        hnotin1)

theorem processLayer_st_nodup (st : List CanonState) (F : List Entry)
    (hnd : st.Nodup) : (processLayer st F).2.1.Nodup := by
  induction F generalizing st with
  | nil => simpa [processLayer] using hnd
  | cons e0 es ih =>
    obtain ⟨z, trail⟩ := e0
    simp only [processLayer]
    exact ih _ (processMoves_st_nodup z trail st z.legalmoves hnd)

/-! ## Lemmas about move trails -/

theorem applyTrail_nil (p : DigitsPuzzle) : applyTrail p [] = p := rfl

theorem applyTrail_cons (p : DigitsPuzzle) (m : Move) (ms : List Move) :
    applyTrail p (m :: ms) = applyTrail (cam p m) ms := rfl

theorem applyTrail_append (p : DigitsPuzzle) (t1 t2 : List Move) :
    applyTrail p (t1 ++ t2) = applyTrail (applyTrail p t1) t2 :=
  List.foldl_append _ _ _ _

theorem ValidTrail_append_one {p : DigitsPuzzle} {t : List Move}
    (hv : ValidTrail p t) {m : Move}
    (hm : m ∈ (applyTrail p t).legalmoves) : ValidTrail p (t ++ [m]) := by
  induction t generalizing p with
  | nil => exact ⟨hm, trivial⟩
  | cons m0 t ih =>
    obtain ⟨h1, h2⟩ := hv
    exact ⟨h1, ih h2 hm⟩

theorem ValidTrail_split {p : DigitsPuzzle} {t1 t2 : List Move}
    (hv : ValidTrail p (t1 ++ t2)) :
    ValidTrail p t1 ∧ ValidTrail (applyTrail p t1) t2 := by
  induction t1 generalizing p with
  | nil => exact ⟨trivial, hv⟩
  | cons m0 t1 ih =>
    obtain ⟨h1, h2⟩ := hv
    obtain ⟨h3, h4⟩ := ih h2
    exact ⟨⟨h1, h3⟩, h4⟩

theorem GoodTrail_valid {p q : DigitsPuzzle} {t : List Move}
    (h : GoodTrail p t q) : ValidTrail p t ∧ applyTrail p t = q := by
  induction t generalizing p with
  | nil => exact ⟨trivial, h.symm⟩
  | cons m ms ih =>
    obtain ⟨h1, _, h3⟩ := h
    obtain ⟨h4, h5⟩ := ih h3
    exact ⟨⟨h1, h4⟩, h5⟩

theorem GoodTrail_append {p0 z : DigitsPuzzle} {t : List Move}
    (h : GoodTrail p0 t z) (hd : t = [] ∨ z.endstate = false) {m : Move}
    (hm : m ∈ z.legalmoves) : GoodTrail p0 (t ++ [m]) (cam z m) := by
  induction t generalizing p0 with
  | nil =>
    cases h
    exact ⟨hm, Or.inl rfl, rfl⟩
  | cons m0 t ih =>
    obtain ⟨h1, h2, h3⟩ := h
    refine ⟨h1, ?_, ?_⟩
    · refine Or.inr ?_
      rcases h2 with rfl | hne
      · cases h3
        rcases hd with hcon | hne2
        · cases hcon
        · exact hne2
      · exact hne
    · refine ih h3 ?_
      rcases hd with hcon | hne2
      · cases hcon
      · exact Or.inr hne2

theorem GoodTrail_last {p0 q : DigitsPuzzle} {t : List Move} {m : Move}
    (h : GoodTrail p0 (t ++ [m]) q) :
    ∃ z, GoodTrail p0 t z ∧ m ∈ z.legalmoves ∧ q = cam z m ∧
      (t = [] ∨ z.endstate = false) := by
  induction t generalizing p0 with
  | nil =>
    obtain ⟨h1, _, h3⟩ := h
    cases h3
    exact ⟨p0, rfl, h1, rfl, Or.inl rfl⟩
  | cons m0 t ih =>
    obtain ⟨h1, h2, h3⟩ := h
    obtain ⟨z, hz1, hz2, hz3, hz4⟩ := ih h3
    have hne : (cam p0 m0).endstate = false := by
      rcases h2 with hcon | hne
      · exact absurd hcon (by simp)
      · exact hne
    refine ⟨z, ⟨h1, ?_, hz1⟩, hz2, hz3, ?_⟩
    · rcases t with - | ⟨m1, t⟩
      · exact Or.inl rfl
      · exact Or.inr hne
    · refine Or.inr ?_
      rcases hz4 with rfl | hzend
      · cases hz1
        exact hne
      · exact hzend

theorem ValidTrail_facts {p0 : DigitsPuzzle} (hp : WF p0) {t : List Move}
    (hv : ValidTrail p0 t) :
    WF (applyTrail p0 t) ∧ (applyTrail p0 t).target = p0.target ∧
      (applyTrail p0 t).sources.length + t.length = p0.sources.length := by
  induction t generalizing p0 with
  | nil => exact ⟨hp, rfl, by simp [applyTrail]⟩
  | cons m ms ih =>
    obtain ⟨h1, h2⟩ := hv
    obtain ⟨hw, ht, hl⟩ := ih (cam_WF hp h1) h2
    rw [applyTrail_cons]
    refine ⟨hw, ht.trans (cam_target _ _), ?_⟩
    have := cam_length hp h1
    simp only [List.length_cons]
    omega

/-- A nonempty valid trail from a well-formed puzzle is shorter than the
number of sources. -/
theorem ValidTrail_length_lt {p0 : DigitsPuzzle} (hp : WF p0)
    {t : List Move} (hv : ValidTrail p0 t) :
    t.length < p0.sources.length := by
  obtain ⟨hw, -, hl⟩ := ValidTrail_facts hp hv
  have : (applyTrail p0 t).sources ≠ [] := hw.1
  have : 0 < (applyTrail p0 t).sources.length := List.length_pos.mpr this
  omega

theorem Reached_zero_iff {p0 p : DigitsPuzzle} :
    Reached p0 0 p ↔ p = p0 := by
  constructor
  · rintro ⟨t, hg, hlen⟩
    rw [List.length_eq_zero.mp hlen] at hg
    exact hg
  · rintro rfl
    exact ⟨[], rfl, rfl⟩

theorem reached_minreach {p0 p : DigitsPuzzle} {j : Nat}
    (h : Reached p0 j p) : ∃ j2 ≤ j, MinReach p0 j2 p := by
  induction j using Nat.strong_induction_on with
  | _ j ih =>
    by_cases hmin : ∀ j3 < j, ¬ Reached p0 j3 p
    · exact ⟨j, le_refl _, h, hmin⟩
    · push_neg at hmin
      obtain ⟨j3, hj3, hr3⟩ := hmin
      obtain ⟨j2, hj2, hm2⟩ := ih j3 hj3 hr3
      exact ⟨j2, le_trans hj2 (le_of_lt hj3), hm2⟩

theorem goodtrail_of_valid {p : DigitsPuzzle} {t : List Move}
    (hv : ValidTrail p t)
    (hint : ∀ t1 m1 t2, t = t1 ++ [m1] ++ t2 → t2 ≠ [] →
      (applyTrail p (t1 ++ [m1])).endstate = false) :
    GoodTrail p t (applyTrail p t) := by
  induction t generalizing p with
  | nil => rfl
  | cons m ms ih =>
    obtain ⟨h1, h2⟩ := hv
    refine ⟨h1, ?_, ?_⟩
    · rcases ms with - | ⟨m2, ms2⟩
      · exact Or.inl rfl
      · refine Or.inr ?_
        have := hint [] m (m2 :: ms2) rfl (by simp)
        simpa [applyTrail] using this
    · rw [applyTrail_cons]
      refine ih h2 ?_
      intro t1 m1 t2 heq hne
      have := hint (m :: t1) m1 t2 (by rw [heq]; simp) hne
      simpa [applyTrail_cons] using this

/-- A shortest nonempty solution is a search path: all its strictly
intermediate states are non-end states. -/
theorem minimal_solution_good {p0 : DigitsPuzzle} {ms : List Move}
    (hsol : Solution p0 ms)
    (hmin : ∀ ms2, Solution p0 ms2 → ms2 ≠ [] → ms.length ≤ ms2.length) :
    GoodTrail p0 ms (applyTrail p0 ms) := by
  refine goodtrail_of_valid hsol.1 ?_
  intro t1 m1 t2 heq hne
  by_contra hend
  rw [Bool.not_eq_false] at hend
  have hv1 : ValidTrail p0 (t1 ++ [m1]) := by
    have := hsol.1
    rw [heq] at this
    exact (ValidTrail_split this).1
  have hsol1 : Solution p0 (t1 ++ [m1]) := ⟨hv1, hend⟩
  have hlen := hmin _ hsol1 (by simp)
  rw [heq] at hlen
  simp only [List.length_append, List.length_cons, List.length_nil] at hlen
  have : 0 < t2.length := List.length_pos.mpr hne
  omega

/-- Existence of a minimal nonempty solution, given any nonempty
solution. -/
theorem exists_minimal_solution {p0 : DigitsPuzzle} {ms : List Move}
    (hsol : Solution p0 ms) (hne : ms ≠ []) :
    ∃ ms2, Solution p0 ms2 ∧ ms2 ≠ [] ∧
      ∀ ms3, Solution p0 ms3 → ms3 ≠ [] → ms2.length ≤ ms3.length := by
  obtain ⟨n, hn⟩ : ∃ n, ms.length = n := ⟨ms.length, rfl⟩
  induction n using Nat.strong_induction_on generalizing ms with
  | _ n ih =>
    by_cases hm : ∀ ms3, Solution p0 ms3 → ms3 ≠ [] → ms.length ≤ ms3.length
    · exact ⟨ms, hsol, hne, hm⟩
    · push_neg at hm
      obtain ⟨ms3, hsol3, hne3, hlt⟩ := hm
      exact ih ms3.length (by omega) hsol3 hne3 rfl

/-! ## The breadth-first layer invariant -/

theorem LayerInv_init {p0 : DigitsPuzzle} (hp : WF p0) :
    LayerInv p0 0 [p0.canonicalstate] [(p0, [])] := by
  refine ⟨?_, ?_, ?_⟩
  · intro e he
    rcases List.mem_singleton.mp he with rfl
    refine ⟨rfl, rfl, by simp, hp, rfl, by simp, ?_⟩
    exact ⟨⟨[], rfl, rfl⟩, fun j hj => absurd hj (Nat.not_lt_zero j)⟩
  · intro s
    simp only [List.mem_singleton]
    constructor
    · intro h
      exact Or.inl h
    · rintro (h | ⟨p, j, hj1, hj2, -⟩)
      · exact h
      · omega
  · intro p hmr _
    rw [show p = p0 from Reached_zero_iff.mp hmr.1]
    exact ⟨[], List.mem_singleton_self _⟩

/-- A state at minimal search distance `k+1` decomposes into a state at
minimal distance `k` plus one legal move. -/
theorem minreach_succ_decompose {p0 p : DigitsPuzzle} {k : Nat}
    (h : MinReach p0 (k + 1) p) :
    ∃ z m t0, GoodTrail p0 t0 z ∧ t0.length = k ∧ m ∈ z.legalmoves ∧
      p = cam z m ∧ MinReach p0 k z ∧ (z.endstate = false ∨ k = 0) := by
  obtain ⟨⟨t, hg, hlen⟩, hminp⟩ := h
  obtain ⟨t0, m, rfl⟩ : ∃ t0 m, t = t0 ++ [m] := by
    rcases List.eq_nil_or_concat t with rfl | ⟨t0, m, rfl⟩
    · simp at hlen
    · exact ⟨t0, m, List.concat_eq_append t0 m⟩
  obtain ⟨z, hz1, hz2, hz3, hz4⟩ := GoodTrail_last hg
  have ht0len : t0.length = k := by
    simp only [List.length_append, List.length_cons, List.length_nil] at hlen
    omega
  have hcond : z.endstate = false ∨ k = 0 := by
    rcases hz4 with hnil | hzend
    · right
      rw [← ht0len, hnil]
      rfl
    · left
      exact hzend
  refine ⟨z, m, t0, hz1, ht0len, hz2, hz3, ⟨⟨t0, hz1, ht0len⟩, ?_⟩, hcond⟩
  intro j hj hr
  obtain ⟨t2, hgt2, hlent2⟩ := hr
  have hgood2 : GoodTrail p0 (t2 ++ [m]) (cam z m) := by
    refine GoodTrail_append hgt2 ?_ hz2
    rcases hcond with hzend | hk0
    · exact Or.inr hzend
    · exact absurd hj (by omega)
  refine hminp (j + 1) (by omega) ⟨t2 ++ [m], ?_, by simp [hlent2]⟩
  rw [hz3]
  exact hgood2

theorem LayerInv_step {p0 : DigitsPuzzle} {k : Nat}
    {st : List CanonState} {F : List Entry} (hinv : LayerInv p0 k st F) :
    LayerInv p0 (k + 1) (processLayer st F).2.1 (processLayer st F).2.2 := by
  have hT : ∀ e ∈ F, e.1.target = p0.target :=
    fun e he => (hinv.entry_good e he).2.2.2.2.1
  have hch : ∀ e ∈ (processLayer st F).2.2, GoodTrail p0 e.2 e.1 ∧
      e.2.length = k + 1 ∧ e.1.endstate = false ∧ WF e.1 ∧
      e.1.target = p0.target ∧
      e.1.sources.length + (k + 1) = p0.sources.length ∧
      e.1.canonicalstate ∉ st := by
    intro e he
    obtain ⟨zt, hzt, m, hm, he1, he2, hend, hnotin⟩ := processLayer_ch st F e he
    obtain ⟨hg, hlen, hkend, hwf, htg, hslen, hmr⟩ := hinv.entry_good zt hzt
    have hgood : GoodTrail p0 (zt.2 ++ [m]) (cam zt.1 m) := by
      refine GoodTrail_append hg ?_ hm
      by_cases hk : k = 0
      · left
        rw [← List.length_eq_zero, hlen]
        exact hk
      · right
        exact hkend hk
    have hclen := cam_length hwf hm
    refine ⟨by rw [he1, he2]; exact hgood, by rw [he2]; simp [hlen], hend,
      by rw [he1]; exact cam_WF hwf hm,
      by rw [he1, cam_target]; exact htg, ?_, hnotin⟩
    rw [he1]
    omega
  have hchmin : ∀ e ∈ (processLayer st F).2.2, MinReach p0 (k + 1) e.1 := by
    intro e he
    obtain ⟨hg, hlen, hend, hwf, htg, hslen, hnotin⟩ := hch e he
    refine ⟨⟨e.2, hg, hlen⟩, ?_⟩
    intro j hj hr
    obtain ⟨j2, hj2, hmr2⟩ := reached_minreach hr
    by_cases hj20 : j2 = 0
    · rw [hj20] at hmr2
      have hep : e.1 = p0 := Reached_zero_iff.mp hmr2.1
      apply hnotin
      rw [hep]
      exact (hinv.st_iff _).mpr (Or.inl rfl)
    · apply hnotin
      exact (hinv.st_iff _).mpr (Or.inr ⟨e.1, j2, by omega, by omega, hmr2,
        hend, htg, rfl⟩)
  refine ⟨?_, ?_, ?_⟩
  · intro e he
    obtain ⟨hg, hlen, hend, hwf, htg, hslen, -⟩ := hch e he
    exact ⟨hg, hlen, fun _ => hend, hwf, htg, hslen, hchmin e he⟩
  · intro s
    rw [processLayer_st_eq]
    constructor
    · intro hs
      rcases List.mem_append.mp hs with h | h
      · rcases (hinv.st_iff s).mp h with h0 | ⟨p, j, h1, h2, h3, h4, h5, h6⟩
        · exact Or.inl h0
        · exact Or.inr ⟨p, j, h1, by omega, h3, h4, h5, h6⟩
      · simp only [List.mem_map] at h
        obtain ⟨e, he, hc⟩ := h
        obtain ⟨-, -, hend, -, htg, -, -⟩ := hch e he
        exact Or.inr ⟨e.1, k + 1, by omega, le_refl _, hchmin e he, hend,
          htg, hc.symm⟩
    · rw [← processLayer_st_eq]
      rintro (rfl | ⟨p, j, h1, h2, h3, h4, h5, h6⟩)
      · exact processLayer_st_subset st F ((hinv.st_iff _).mpr (Or.inl rfl))
      · by_cases hjk : j ≤ k
        · exact processLayer_st_subset st F ((hinv.st_iff _).mpr
            (Or.inr ⟨p, j, h1, hjk, h3, h4, h5, h6⟩))
        · have hj : j = k + 1 := by omega
          subst hj
          obtain ⟨z, m, t0, hz1, ht0len, hz2, hz3, hzmin, hcond⟩ :=
            minreach_succ_decompose h3
          obtain ⟨t3, hzF⟩ := hinv.frontier_complete z hzmin hcond
          have hmem := processLayer_nonend_mem_st st F (z, t3) hzF m hz2
            (by rw [← hz3]; exact h4)
          rw [h6, hz3]
          exact hmem
  · intro p hmr hor
    have hpend : p.endstate = false := by
      rcases hor with h | h
      · exact h
      · omega
    obtain ⟨z, m, t0, hz1, ht0len, hz2, hz3, hzmin, hcond⟩ :=
      minreach_succ_decompose hmr
    obtain ⟨t3, hzF⟩ := hinv.frontier_complete z hzmin hcond
    have hptg : p.target = p0.target := by
      obtain ⟨hv, happ⟩ := GoodTrail_valid hz1
      rw [hz3, cam_target]
      exact ((hinv.entry_good (z, t3) hzF).2.2.2.2.1)
    have hnotin : p.canonicalstate ∉ st := by
      intro hcon
      rcases (hinv.st_iff _).mp hcon with h0 | ⟨p2, j, h1, h2, h3, h4, h5, h6⟩
      · have hpp0 : p = p0 := canonicalstate_inj hptg h0
        exact hmr.2 0 (by omega) (Reached_zero_iff.mpr hpp0)
      · have hpp2 : p2 = p := canonicalstate_inj (h5.trans hptg.symm) h6.symm
        rw [hpp2] at h3
        exact hmr.2 j (by omega) h3.1
    obtain ⟨t2, ht2⟩ := processLayer_nonend_enqueued st F hT (z, t3) hzF m hz2
      (by rw [← hz3]; exact hpend) (by rw [← hz3]; exact hnotin)
    refine ⟨t2, ?_⟩
    rw [hz3]
    exact ht2

/-- Every solution yielded while processing layer `k` is a valid nonempty
solution of length exactly `k + 1`. -/
theorem layer_sols_sound {p0 : DigitsPuzzle} {k : Nat}
    {st : List CanonState} {F : List Entry} (hinv : LayerInv p0 k st F) :
    ∀ sl ∈ (processLayer st F).1, Solution p0 sl ∧ sl.length = k + 1 := by
  intro sl hsl
  obtain ⟨zt, hzt, m, hm, rfl, hend, -⟩ := processLayer_sols st F sl hsl
  obtain ⟨hg, hlen, -⟩ := hinv.entry_good zt hzt
  obtain ⟨hv, happ⟩ := GoodTrail_valid hg
  refine ⟨⟨ValidTrail_append_one hv (by rw [happ]; exact hm), ?_⟩,
    by simp [hlen]⟩
  rw [applyTrail_append, happ]
  exact hend

/-- If a shortest nonempty solution has length exactly `k + 1`, layer `k`
yields at least one solution. -/
theorem layer_sols_complete {p0 : DigitsPuzzle} {k : Nat}
    {st : List CanonState} {F : List Entry} (hinv : LayerInv p0 k st F)
    {ms : List Move} (hsol : Solution p0 ms)
    (hmin : ∀ ms2, Solution p0 ms2 → ms2 ≠ [] → ms.length ≤ ms2.length)
    (hlen : ms.length = k + 1) : (processLayer st F).1 ≠ [] := by
  have hT : ∀ e ∈ F, e.1.target = p0.target :=
    fun e he => (hinv.entry_good e he).2.2.2.2.1
  have hgood := minimal_solution_good hsol hmin
  obtain ⟨t0, m, rfl⟩ : ∃ t0 m, ms = t0 ++ [m] := by
    rcases List.eq_nil_or_concat ms with rfl | ⟨t0, m, rfl⟩
    · simp at hlen
    · exact ⟨t0, m, List.concat_eq_append t0 m⟩
  obtain ⟨z, hz1, hz2, hz3, hz4⟩ := GoodTrail_last hgood
  have ht0len : t0.length = k := by
    simp only [List.length_append, List.length_cons, List.length_nil] at hlen
    omega
  have hcond : z.endstate = false ∨ k = 0 := by
    rcases hz4 with hnil | hzend
    · right
      rw [← ht0len, hnil]
      rfl
    · left
      exact hzend
  have hzmin : MinReach p0 k z := by
    refine ⟨⟨t0, hz1, ht0len⟩, ?_⟩
    intro j hj hr
    obtain ⟨t2, hgt2, hlent2⟩ := hr
    have hgood2 : GoodTrail p0 (t2 ++ [m]) (cam z m) := by
      refine GoodTrail_append hgt2 ?_ hz2
      rcases hcond with hzend | hk0
      · exact Or.inr hzend
      · exact absurd hj (by omega)
    obtain ⟨hv2, happ2⟩ := GoodTrail_valid hgood2
    have hend2 : (applyTrail p0 (t2 ++ [m])).endstate = true := by
      rw [happ2, ← hz3]
      exact hsol.2
    have := hmin (t2 ++ [m]) ⟨hv2, hend2⟩ (by simp)
    simp only [List.length_append, List.length_cons, List.length_nil]
      at this hlen
    omega
  obtain ⟨t3, hzF⟩ := hinv.frontier_complete z hzmin hcond
  obtain ⟨-, -, -, hwfz, htgz, hslenz, -⟩ := hinv.entry_good (z, t3) hzF
  have hendchild : (cam z m).endstate = true := by
    rw [← hz3]
    exact hsol.2
  have hclen := cam_length hwfz hz2
  have hnotin : (cam z m).canonicalstate ∉ st := by
    intro hcon
    rcases (hinv.st_iff _).mp hcon with h0 | ⟨p2, j, h1, h2, h3, h4, h5, h6⟩
    · have hpp0 : cam z m = p0 := canonicalstate_inj
        (by rw [cam_target]; exact htgz) h0
      have hslenz2 : z.sources.length + k = p0.sources.length := hslenz
      rw [hpp0] at hclen
      omega
    · have hpp2 : p2 = cam z m := canonicalstate_inj
        (by rw [h5, cam_target]; exact htgz.symm) h6.symm
      rw [hpp2, hendchild] at h4
      cases h4
  have hyield := processLayer_end_yielded st F hT (z, t3) hzF m hz2
    hendchild hnotin
  exact List.ne_nil_of_mem hyield

/-- Soundness of the layered search: every output is a nonempty valid
solution. -/
theorem solveLayers_sound {p0 : DigitsPuzzle} (j : Nat) :
    ∀ {k : Nat} {st : List CanonState} {F : List Entry},
      LayerInv p0 k st F →
      ∀ sl ∈ solveLayers j st F, Solution p0 sl ∧ sl ≠ [] := by
  induction j with
  | zero =>
    intro k st F _ sl hsl
    simp [solveLayers] at hsl
  | succ j ih =>
    intro k st F hinv sl hsl
    simp only [solveLayers] at hsl
    rcases List.mem_append.mp hsl with h | h
    · obtain ⟨hs, hlen⟩ := layer_sols_sound hinv sl h
      refine ⟨hs, ?_⟩
      intro hcon
      rw [hcon] at hlen
      simp at hlen
    · exact ih (LayerInv_step hinv) sl h

/-- Completeness/minimality of the layered search: if a shortest nonempty
solution has length within the layers still to run, the first output has
exactly that length. -/
theorem solveLayers_head {p0 : DigitsPuzzle} (j : Nat) :
    ∀ {k : Nat} {st : List CanonState} {F : List Entry} {ms : List Move},
      LayerInv p0 k st F → Solution p0 ms →
      (∀ ms2, Solution p0 ms2 → ms2 ≠ [] → ms.length ≤ ms2.length) →
      k < ms.length → ms.length ≤ k + j →
      ∃ sl rest, solveLayers j st F = sl :: rest ∧
        sl.length = ms.length := by
  induction j with
  | zero =>
    intro k st F ms _ _ _ h1 h2
    omega
  | succ j ih =>
    intro k st F ms hinv hsol hmin h1 h2
    by_cases hlk : ms.length = k + 1
    · have hne := layer_sols_complete hinv hsol hmin hlk
      obtain ⟨s0, ss, hss⟩ := List.exists_cons_of_ne_nil hne
      have hs0 : s0 ∈ (processLayer st F).1 := by
        rw [hss]
        exact List.mem_cons_self _ _
      obtain ⟨-, hs0len⟩ := layer_sols_sound hinv s0 hs0
      refine ⟨s0, ss ++ solveLayers j (processLayer st F).2.1
        (processLayer st F).2.2, ?_, by omega⟩
      simp only [solveLayers]
      rw [hss, List.cons_append]
    · have hsols_nil : (processLayer st F).1 = [] := by
        by_contra hne
        obtain ⟨s0, hs0⟩ := List.exists_mem_of_ne_nil _ hne
        obtain ⟨hsol0, hlen0⟩ := layer_sols_sound hinv s0 hs0
        have hne0 : s0 ≠ [] := by
          intro hcon
          rw [hcon] at hlen0
          simp at hlen0
        have := hmin s0 hsol0 hne0
        omega
      simp only [solveLayers, hsols_nil, List.nil_append]
      exact ih (LayerInv_step hinv) hsol hmin (by omega) (by omega)

/-! ## Relating the FIFO queue search to the layered search -/

theorem solveAux_nil (f : Nat) (st : List CanonState) :
    solveAux f st [] = [] := by
  cases f <;> rfl

theorem solveAux_queue_split (q : List Entry) :
    ∀ (rest : List Entry) (st : List CanonState) (f : Nat),
      q.length ≤ f →
      solveAux f st (q ++ rest) =
        (processLayer st q).1 ++
          solveAux (f - q.length) (processLayer st q).2.1
            (rest ++ (processLayer st q).2.2) := by
  induction q with
  | nil =>
    intro rest st f _
    simp [processLayer]
  | cons e0 es ih =>
    obtain ⟨z, trail⟩ := e0
    intro rest st f hf
    match f, hf with
    | f + 1, hf =>
      have hlen : es.length ≤ f := by
        simp only [List.length_cons] at hf
        omega
      have hstep : solveAux (f + 1) st (((z, trail) :: es) ++ rest) =
          (processMoves z trail st z.legalmoves).1 ++
            solveAux f (processMoves z trail st z.legalmoves).2.1
              ((es ++ rest) ++ (processMoves z trail st z.legalmoves).2.2) :=
        rfl
      have hlay : processLayer st ((z, trail) :: es) =
          ((processMoves z trail st z.legalmoves).1 ++
            (processLayer (processMoves z trail st z.legalmoves).2.1 es).1,
           (processLayer (processMoves z trail st z.legalmoves).2.1 es).2.1,
           (processMoves z trail st z.legalmoves).2.2 ++
            (processLayer (processMoves z trail st z.legalmoves).2.1 es).2.2) :=
        rfl
      rw [hstep, List.append_assoc es rest _]
      rw [ih (rest ++ (processMoves z trail st z.legalmoves).2.2)
        (processMoves z trail st z.legalmoves).2.1 f hlen]
      rw [hlay]
      simp [List.append_assoc, Nat.succ_sub_succ]

theorem processLayer_of_no_moves (st : List CanonState) (q : List Entry)
    (h : ∀ e ∈ q, e.1.legalmoves = []) :
    processLayer st q = ([], st, []) := by
  induction q generalizing st with
  | nil => rfl
  | cons e0 es ih =>
    obtain ⟨z, t⟩ := e0
    have hz : z.legalmoves = [] := h (z, t) (List.mem_cons_self _ _)
    simp only [processLayer, hz, processMoves]
    rw [ih st (fun e he => h e (List.mem_cons_of_mem _ he))]
    rfl

theorem layersFuel_mono (k : Nat) :
    ∀ (st : List CanonState) (q : List Entry),
      layersFuel k st q ≤ layersFuel (k + 1) st q := by
  induction k with
  | zero =>
    intro st q
    simp only [layersFuel]
    omega
  | succ k ih =>
    intro st q
    simp only [layersFuel]
    exact Nat.add_le_add_left (ih _ _) _

theorem solveAux_eq_solveLayers (k : Nat) :
    ∀ (st : List CanonState) (q : List Entry) (f : Nat),
      (∀ e ∈ q, WF e.1 ∧ e.1.sources.length ≤ k + 1) →
      layersFuel k st q ≤ f →
      solveAux f st q = solveLayers (k + 1) st q := by
  induction k with
  | zero =>
    intro st q f hq hf
    have hmoves : ∀ e ∈ q, e.1.legalmoves = [] :=
      fun e he => legalmoves_eq_nil (hq e he).2
    have hPL := processLayer_of_no_moves st q hmoves
    have hql : q.length ≤ f := by
      simpa [layersFuel] using hf
    have := solveAux_queue_split q [] st f hql
    rw [List.append_nil, List.nil_append] at this
    rw [this, hPL]
    simp [solveLayers, hPL, solveAux_nil]
  | succ k ih =>
    intro st q f hq hf
    simp only [layersFuel] at hf
    have hql : q.length ≤ f := by omega
    have := solveAux_queue_split q [] st f hql
    rw [List.append_nil, List.nil_append] at this
    rw [this]
    have hch : ∀ e ∈ (processLayer st q).2.2,
        WF e.1 ∧ e.1.sources.length ≤ k + 1 := by
      intro e he
      obtain ⟨zt, hzt, m, hm, he1, -, -, -⟩ := processLayer_ch st q e he
      obtain ⟨hwf, hlen⟩ := hq zt hzt
      have hcl := cam_length hwf hm
      constructor
      · rw [he1]
        exact cam_WF hwf hm
      · rw [he1]
        omega
    rw [ih (processLayer st q).2.1 (processLayer st q).2.2 (f - q.length)
      hch (by omega)]
    rfl

/-- For a well-formed puzzle the FIFO search with the chosen fuel agrees
with the layered search run for `sources.length` layers. -/
theorem solveAll_eq_solveLayers {p : DigitsPuzzle} (hp : WF p) :
    solveAll p =
      solveLayers p.sources.length [p.canonicalstate] [(p, [])] := by
  have hpos : 0 < p.sources.length := List.length_pos.mpr hp.1
  obtain ⟨n, hn⟩ : ∃ n, p.sources.length = n + 1 :=
    ⟨p.sources.length - 1, by omega⟩
  unfold solveAll
  rw [hn]
  refine solveAux_eq_solveLayers n [p.canonicalstate] [(p, [])] _ ?_ ?_
  · intro e he
    rcases List.mem_singleton.mp he with rfl
    refine ⟨hp, ?_⟩
    show p.sources.length ≤ n + 1
    omega
  · exact layersFuel_mono n _ _

/-! ## The solver claims -/

theorem solveAll_sound {p : DigitsPuzzle} (hp : WF p) :
    ∀ sl ∈ solveAll p, Solution p sl ∧ sl ≠ [] := by
  intro sl hsl
  rw [solveAll_eq_solveLayers hp] at hsl
  exact solveLayers_sound _ (LayerInv_init hp) sl hsl

/-- C4 (amended): for every well-formed puzzle, every solution `solve`
returns is a valid nonempty solution — in particular, when no end state
is reachable the result is empty rather than an error.  And whenever
some nonempty move sequence solves the puzzle, `solve(puzzle, n=1)`
returns a valid nonempty solution whose length is minimal among all
nonempty solutions.  (Minimality over all solutions including the empty
one fails when the initial state is already an end state, because the
seed is never tested for `endstate`: see
`solve_seed_endstate_not_minimal`.) -/
theorem solve_shortest (p : DigitsPuzzle) (hp : WF p) :
    (∀ sl ∈ solveAll p, Solution p sl ∧ sl ≠ []) ∧
    (∀ ms, Solution p ms → ms ≠ [] →
      solve1 p ≠ [] ∧ Solution p (solve1 p) ∧
        ∀ ms2, Solution p ms2 → ms2 ≠ [] →
          (solve1 p).length ≤ ms2.length) := by
  refine ⟨solveAll_sound hp, ?_⟩
  intro ms hsol hne
  obtain ⟨ms2, hsol2, hne2, hmin2⟩ := exists_minimal_solution hsol hne
  have hlt : ms2.length < p.sources.length := ValidTrail_length_lt hp hsol2.1
  have h0 : 0 < ms2.length := List.length_pos.mpr hne2
  obtain ⟨sl, rest, hsl, hslen⟩ := solveLayers_head p.sources.length
    (LayerInv_init hp) hsol2 hmin2 h0 (by omega)
  have hsolve1 : solve1 p = sl := by
    unfold solve1
    rw [solveAll_eq_solveLayers hp, hsl]
    rfl
  have hslmem : sl ∈ solveAll p := by
    rw [solveAll_eq_solveLayers hp, hsl]
    exact List.mem_cons_self _ _
  obtain ⟨hsolsl, hnesl⟩ := solveAll_sound hp sl hslmem
  refine ⟨by rw [hsolve1]; exact hnesl, by rw [hsolve1]; exact hsolsl, ?_⟩
  intro ms3 hsol3 hne3
  rw [hsolve1, hslen]
  exact hmin2 ms3 hsol3 hne3

/-- Closed witness for `solve_shortest` at a concrete solvable puzzle. -/
theorem solve_shortest_witness :
    WF (⟨10, [7, 3], .free⟩ : DigitsPuzzle) ∧
    (solve1 ⟨10, [7, 3], .free⟩ ≠ [] ∧
      Solution ⟨10, [7, 3], .free⟩ (solve1 ⟨10, [7, 3], .free⟩) ∧
      ∀ ms2, Solution ⟨10, [7, 3], .free⟩ ms2 → ms2 ≠ [] →
        (solve1 ⟨10, [7, 3], .free⟩).length ≤ ms2.length) :=
  ⟨by decide, (solve_shortest ⟨10, [7, 3], .free⟩ (by decide)).2
      [(Op.add, (7, 3))] ⟨⟨by decide, trivial⟩, by decide⟩ (by decide)⟩

/-- C4 counterexample: on a puzzle whose initial state is already an end
state, `solve(puzzle, n=1)` returns a length-1 move sequence even though
the empty sequence already reaches an end state, so the returned length
is not minimal among all move sequences reaching an end state. -/
theorem solve_seed_endstate_not_minimal :
    DigitsPuzzle.endstate ⟨3, [6, 3, 2], .free⟩ = true ∧
    Solution ⟨3, [6, 3, 2], .free⟩ [] ∧
    solve1 ⟨3, [6, 3, 2], .free⟩ = [(Op.add, (6, 2))] ∧
    ¬ (solve1 ⟨3, [6, 3, 2], .free⟩).length ≤
        (List.length ([] : List Move)) :=
  ⟨by decide, ⟨trivial, by decide⟩, by decide, by decide⟩

theorem solveAuxTrace_fst (f : Nat) :
    ∀ (st : List CanonState) (q : List Entry),
      (solveAuxTrace f st q).1 = solveAux f st q := by
  induction f with
  | zero => intro st q; rfl
  | succ f ih =>
    intro st q
    match q with
    | [] => rfl
    | (z, trail) :: rest =>
      simp only [solveAuxTrace, solveAux]
      rw [ih]

theorem solveAuxTrace_nodup (f : Nat) :
    ∀ (st : List CanonState) (q : List Entry), st.Nodup →
      (st ++ ((solveAuxTrace f st q).2.map
        fun e => e.1.canonicalstate)).Nodup := by
  induction f with
  | zero =>
    intro st q h
    simpa [solveAuxTrace] using h
  | succ f ih =>
    intro st q h
    match q with
    | [] => simpa [solveAuxTrace] using h
    | (z, trail) :: rest =>
      simp only [solveAuxTrace, List.map_append]
      rw [← List.append_assoc, ← processMoves_st_eq]
      exact ih _ _ (processMoves_st_nodup z trail st z.legalmoves h)

/-- C5: across one `_solve` run (any fuel, i.e. any number of outer loop
iterations), no two entries ever placed on the frontier queue — the seed
included — share a canonical state. -/
theorem solver_never_revisits (p : DigitsPuzzle) (fuel : Nat) :
    (p.canonicalstate ::
      ((solveAuxTrace fuel [p.canonicalstate] [(p, [])]).2.map
        fun e => e.1.canonicalstate)).Nodup := by
  have h := solveAuxTrace_nodup fuel [p.canonicalstate] [(p, [])]
    (List.nodup_singleton _)
  simpa using h

/-- C2 (amended): while processing one dequeued entry, every end-state
child whose canonical state is not yet in the visited set has its trail
yielded as a solution, but the visited set is extended only with the
canonical states of the non-end children that get enqueued — a yielded
end state's canonical state is NOT recorded as visited. -/
theorem end_yields_not_recorded (z : DigitsPuzzle) (trail : List Move)
    (st : List CanonState) :
    (∀ m ∈ z.legalmoves, (cam z m).endstate = true →
      (cam z m).canonicalstate ∉ st →
      (trail ++ [m]) ∈ (processMoves z trail st z.legalmoves).1) ∧
    ((processMoves z trail st z.legalmoves).2.1 =
      st ++ ((processMoves z trail st z.legalmoves).2.2.map
        fun e => e.1.canonicalstate)) ∧
    (∀ e ∈ (processMoves z trail st z.legalmoves).2.2,
      e.1.endstate = false) :=
  ⟨fun m hm hend hnotin =>
      processMoves_end_yielded z trail st z.legalmoves m hm hend hnotin,
   processMoves_st_eq z trail st z.legalmoves,
   fun e he => (processMoves_es z trail st z.legalmoves e he).1⟩

/-- Closed witness for `end_yields_not_recorded`: the first end-state
child of the seed of puzzle (target 6, sources 4,2,2) is yielded. -/
theorem end_yields_not_recorded_witness :
    ([] ++ [(Op.add, (4, 2))]) ∈
      (processMoves ⟨6, [4, 2, 2], .free⟩ []
        [DigitsPuzzle.canonicalstate ⟨6, [4, 2, 2], .free⟩]
        (DigitsPuzzle.legalmoves ⟨6, [4, 2, 2], .free⟩)).1 :=
  (end_yields_not_recorded ⟨6, [4, 2, 2], .free⟩ []
      [DigitsPuzzle.canonicalstate ⟨6, [4, 2, 2], .free⟩]).1
    (Op.add, (4, 2)) (by decide) (by decide) (by decide)

/-- C2 counterexample: a single `solve(puzzle, 2)` call yields two
solutions that end in the same canonical state — the end state's
canonical state is never recorded as visited, so the duplicate is not
suppressed. -/
theorem solver_duplicate_end_yields :
    (solveN ⟨6, [4, 2, 2], .free⟩ 2).length = 2 ∧
    ¬ ((solveN ⟨6, [4, 2, 2], .free⟩ 2).map
      fun sl =>
        (applyTrail ⟨6, [4, 2, 2], .free⟩ sl).canonicalstate).Nodup := by
  constructor
  · decide
  · decide

end NYTDigits
